import Mathlib

/-!
# Distributed-context coordination layer of the TFRT runtime

A shallow embedding of `lib/distributed_runtime/distributed_context.cc` and
`lib/distributed_runtime/task_name_util.cc`, followed by theorems about the
fan-out / fan-in broadcast (`CreateRemoteContexts`, `CloseRemoteContexts`), the
remote-client cache (`GetRemoteClient`), the collective-group registry
(`InitializeCollectiveGroups`, `GetCollectiveGroup`) and the task-name
formatter / parser (`ConcatTaskName`, `ParseTaskName`).

Conventions of the embedding:
* `std::string` / `string_view` values that are only compared are `String`;
  the task-name utilities work on the character sequence, `List Char`;
* heap objects (`make_shared`, `make_unique`, `new`) are identified by the
  order of their allocation, a natural number;
* `llvm::Error` is `Option ErrorInfo`, `none` being `Error::success()`;
* asynchronous completions are events of an explicit schedule.
-/

namespace tfrt

/-! ## Errors and results -/

/-- Kinds of error used by the distributed runtime. -/
inductive ErrorCode where
  | InvalidArgument
  | NotFound
  | Unavailable
  | Unknown
  deriving DecidableEq, Repr

/-- Payload of a failed `llvm::Error`. -/
structure ErrorInfo where
  code : ErrorCode
  message : String
  deriving DecidableEq, Repr

/-- An `llvm::Error`: `none` is `Error::success()`. -/
abbrev Error := Option ErrorInfo

/-- What a caller of a C++ function observes: a value, an error handed back
(`llvm::Expected` in its error state), or an assertion that stopped the
process before the function returned. -/
inductive Result (α : Type) where
  | value (a : α)
  | error (e : ErrorInfo)
  | assertFailed (msg : String)
  deriving DecidableEq, Repr

/-- Sequencing of results: the first non-value stops the computation. -/
def Result.andThen {α β : Type} : Result α → (α → Result β) → Result β
  | Result.value a, f => f a
  | Result.error e, _ => Result.error e
  | Result.assertFailed m, _ => Result.assertFailed m

/-- The call `llvm::Expected<T>::get()`: it asserts that the expected holds a value
(`assert(!HasError && "Cannot get value when an error exists!")`), so an
error state does not come back to the caller as an error. -/
def Result.get {α : Type} : Result α → Result α
  | Result.value a => Result.value a
  | Result.error _ => Result.assertFailed "Cannot get value when an error exists!"
  | Result.assertFailed m => Result.assertFailed m

/-! ## Identifiers, maps -/

/-- The type `TaskHandle`: an opaque integer identifier of one task. -/
abbrev TaskHandle := Nat

/-- Lookup `find` of `llvm::StringMap` / `llvm::DenseMap`, on the list of entries in
insertion order. -/
def Map.find {κ ν : Type} [DecidableEq κ] : List (κ × ν) → κ → Option ν
  | [], _ => none
  | (k, v) :: rest, key => if k = key then some v else Map.find rest key

/-- Insertion `try_emplace`: inserts only when the key is absent; the flag is the
`second` of the returned pair. -/
def Map.try_emplace {κ ν : Type} [DecidableEq κ] (m : List (κ × ν)) (key : κ) (v : ν) :
    List (κ × ν) × Bool :=
  match Map.find m key with
  | some _ => (m, false)
  | none => (m ++ [(key, v)], true)

/-! ## Configuration messages (`remote_message.proto`) -/

/-- One job of the cluster: its name and its `map<int32, string>` of task
addresses, as the entries in iteration order. -/
structure JobConfiguration where
  name : String
  tasks : List (Int × String)
  deriving DecidableEq, Repr

/-- Cluster topology: the repeated field `jobs`. -/
structure ClusterConfiguration where
  jobs : List JobConfiguration
  deriving DecidableEq, Repr

/-- One collective group declaration: a name and the task names of its members. -/
structure CollectiveGroupProto where
  name : String
  members : List String
  deriving DecidableEq, Repr

/-- The message `DistributedContextConfiguration`. -/
structure DistributedContextConfiguration where
  job_name : String
  task_id : Int
  cluster_config : ClusterConfiguration
  collective_groups : List CollectiveGroupProto
  deriving DecidableEq, Repr

/-! ## Remote clients -/

/-- A remote client object; `object` is the identity (allocation number) of
the object the communicator allocated. -/
structure RemoteClient where
  object : Nat
  task_handle : TaskHandle
  deriving DecidableEq, Repr

/-- The fabric communicator of the server context, with the log of the
`CreateRemoteClient` invocations it has served. -/
structure FabricCommunicator where
  created : List TaskHandle
  deriving DecidableEq, Repr

/-- The factory `FabricCommunicator::CreateRemoteClient(dist_ctx, task_handle)`: allocates a
new client object. -/
def FabricCommunicator.CreateRemoteClient (c : FabricCommunicator) (task_handle : TaskHandle) :
    RemoteClient × FabricCommunicator :=
  ({ object := c.created.length, task_handle := task_handle },
   { created := c.created ++ [task_handle] })

/-- A resolved collective group. -/
structure CollectiveGroup where
  name : String
  members : List TaskHandle
  deriving DecidableEq, Repr

/-- The class `ClusterInfo` of `cluster_info.h`, which is not among the sources, as
far as `InitializeCollectiveGroups` uses it: `GetTaskHandle(task_name)`, an
`llvm::Expected<TaskHandle>`. It is a parameter of the development. -/
structure ClusterInfo where
  GetTaskHandle : String → Result TaskHandle

/-- The parts of `DistributedContext` that the coordination logic reads and
writes. `GetTaskHandle` is the member function
`DistributedContext::GetTaskHandle(job, task_id)` declared in the header; it is
a parameter of the development. -/
structure DistributedContext where
  context_id_ : Nat
  dist_config_ : DistributedContextConfiguration
  cluster_info_ : ClusterInfo
  GetTaskHandle : String → Int → TaskHandle
  collective_groups_ : List (String × CollectiveGroup)
  remote_clients_ : List (TaskHandle × RemoteClient)
  communicator : FabricCommunicator

/-- The inner loop of `InitializeCollectiveGroups`: every member name is resolved
with `cluster_info_.GetTaskHandle(task).get()` and pushed back on `members`. -/
def resolveMembers (cluster_info_ : ClusterInfo) :
    List String → List TaskHandle → Result (List TaskHandle)
  | [], members => Result.value members
  | task :: rest, members =>
    (cluster_info_.GetTaskHandle task).get.andThen fun task_handle =>
      resolveMembers cluster_info_ rest (members ++ [task_handle])

/-- The outer loop of `InitializeCollectiveGroups` over the declared groups,
on the map built so far. -/
def initializeGroupsLoop (cluster_info_ : ClusterInfo) :
    List CollectiveGroupProto → List (String × CollectiveGroup) →
      Result (List (String × CollectiveGroup))
  | [], collective_groups => Result.value collective_groups
  | group_config :: rest, collective_groups =>
    (resolveMembers cluster_info_ group_config.members []).andThen fun members =>
      initializeGroupsLoop cluster_info_ rest
        (Map.try_emplace collective_groups group_config.name
          { name := group_config.name, members := members }).1

/-- The method `DistributedContext::InitializeCollectiveGroups`. -/
def InitializeCollectiveGroups (cluster_info_ : ClusterInfo)
    (config : DistributedContextConfiguration) : Result (List (String × CollectiveGroup)) :=
  initializeGroupsLoop cluster_info_ config.collective_groups []

/-- The constructor `DistributedContext::DistributedContext`, as far as the
coordination state goes: the members are initialised in declaration order,
`cluster_info_` (given, built from the configuration) before
`collective_groups_`. `InitializeRemoteDevices` registers devices with the host
and leaves this state alone. -/
def DistributedContext.construct (context_id : Nat) (communicator : FabricCommunicator)
    (GetTaskHandle : String → Int → TaskHandle) (cluster_info_ : ClusterInfo)
    (configuration : DistributedContextConfiguration) : Result DistributedContext :=
  (InitializeCollectiveGroups cluster_info_ configuration).andThen fun collective_groups =>
    Result.value
      { context_id_ := context_id, dist_config_ := configuration,
        cluster_info_ := cluster_info_, GetTaskHandle := GetTaskHandle,
        collective_groups_ := collective_groups, remote_clients_ := [],
        communicator := communicator }

/-- The method `DistributedContext::GetCollectiveGroup`; the lookup is guarded by an
assertion. -/
def DistributedContext.GetCollectiveGroup (ctx : DistributedContext) (name : String) :
    Result CollectiveGroup :=
  match Map.find ctx.collective_groups_ name with
  | none => Result.assertFailed "Failed to find collective group."
  | some group => Result.value group

/-- The method `DistributedContext::GetRemoteClient`. -/
def DistributedContext.GetRemoteClient (ctx : DistributedContext) (task_handle : TaskHandle) :
    RemoteClient × DistributedContext :=
  match Map.find ctx.remote_clients_ task_handle with
  | some client => (client, ctx)
  | none =>
    let (client, communicator) := ctx.communicator.CreateRemoteClient task_handle
    let ret := Map.try_emplace ctx.remote_clients_ task_handle client
    (client, { ctx with remote_clients_ := ret.1, communicator := communicator })

/-! ## Request messages and borrowed sub-messages -/

/-- A sub-message allocated inside the message object `owner`: its
`cluster_config`, or the entry `index` of its `collective_groups`. -/
inductive Ptr where
  | cluster_config (owner : Nat)
  | collective_group (owner : Nat) (index : Nat)
  deriving DecidableEq, Repr

/-- The field `dist_config` of a per-recipient `CreateContextRequest`. The
pointer fields hold what the message would delete when it is destroyed. -/
structure RequestDistConfig where
  job_name : String
  task_id : Int
  cluster_config : Option Ptr
  collective_groups : List Ptr
  deriving DecidableEq, Repr

/-- A per-recipient `CreateContextRequest`. -/
structure CreateContextRequest where
  context_id : Nat
  dist_config : RequestDistConfig
  deriving DecidableEq, Repr

/-- A `CloseContextRequest`: the context id is its only field that is set. -/
structure CloseContextRequest where
  context_id : Nat
  deriving DecidableEq, Repr

/-- The request of an issued call. -/
inductive Request where
  | create (r : CreateContextRequest)
  | close (r : CloseContextRequest)
  deriving DecidableEq, Repr

/-- The two broadcast operations. -/
inductive Rpc where
  | CreateContextAsync
  | CloseContextAsync
  deriving DecidableEq, Repr

/-- One outbound call as the transport receives it: the client it is made
on, the request and response objects passed by pointer, and the content of the
request at the time of the call. -/
structure Call where
  rpc : Rpc
  client : RemoteClient
  request_object : Nat
  response_object : Nat
  request : Request
  deriving DecidableEq, Repr

/-- The setter `set_allocated_cluster_config`: the message takes the pointer. -/
def RequestDistConfig.set_allocated_cluster_config (d : RequestDistConfig) (p : Ptr) :
    RequestDistConfig :=
  { d with cluster_config := some p }

/-- The call `mutable_collective_groups()->AddAllocated(p)`. -/
def RequestDistConfig.AddAllocated (d : RequestDistConfig) (p : Ptr) : RequestDistConfig :=
  { d with collective_groups := d.collective_groups ++ [p] }

/-- The call `release_cluster_config()`: the message gives the pointer up. -/
def RequestDistConfig.release_cluster_config (d : RequestDistConfig) : RequestDistConfig :=
  { d with cluster_config := none }

/-- The call `mutable_collective_groups()->ReleaseLast()`: the last entry leaves the field. -/
def RequestDistConfig.ReleaseLast (d : RequestDistConfig) : RequestDistConfig :=
  { d with collective_groups := d.collective_groups.dropLast }

/-- The loop
`for (int i = 0; i < d->collective_groups_size(); i++) ReleaseLast();`
started at counter `i`. Every iteration shortens the field, so `fuel` equal to
the size of the field is never exhausted before the loop condition fails. -/
def RequestDistConfig.releaseLoop : Nat → Nat → RequestDistConfig → RequestDistConfig
  | 0, _, d => d
  | fuel + 1, i, d =>
    if i < d.collective_groups.length then
      RequestDistConfig.releaseLoop fuel (i + 1) d.ReleaseLast
    else d

/-- Pointers a per-recipient request deletes when it is destroyed. -/
def CreateContextRequest.deletes (r : CreateContextRequest) : List Ptr :=
  r.dist_config.cluster_config.toList ++ r.dist_config.collective_groups

/-- Pointers a request deletes when it is destroyed; a close request holds none. -/
def Request.deletes : Request → List Ptr
  | Request.create r => r.deletes
  | Request.close _ => []

/-! ## RefCountedCallback -/

/-- Modelled from the spec: `RefCountedCallback` of
`tfrt/support/refcounted_callback.h`, which is not among the sources. It
tracks an outstanding count (here the reference count that `TakeRef` and
`CopyRef` in the broadcast functions manipulate), keeps the first error it is
told about, and triggers the user completion when the count reaches zero. -/
structure RefCountedCallback where
  refs : Nat
  error : Error
  deriving DecidableEq, Repr

/-- Modelled from the spec: `UpdateState(error)` records only the first error seen and
discards later ones. -/
def RefCountedCallback.UpdateState (cb : RefCountedCallback) (e : Error) : RefCountedCallback :=
  match cb.error, e with
  | none, some info => { cb with error := some info }
  | _, _ => cb

/-- The call `CopyRef()`: one more holder. -/
def RefCountedCallback.CopyRef (cb : RefCountedCallback) : RefCountedCallback :=
  { cb with refs := cb.refs + 1 }

/-- Modelled from the spec: a holder goes away; when the count reaches zero the user
completion is invoked with the recorded error, or with success. The second
component is the list of invocations of the user completion this causes. -/
def RefCountedCallback.DropRef (cb : RefCountedCallback) : RefCountedCallback × List Error :=
  if cb.refs - 1 = 0 then ({ cb with refs := 0 }, [cb.error])
  else ({ cb with refs := cb.refs - 1 }, [])

/-! ## The broadcast: `CreateRemoteContexts` and `CloseRemoteContexts` -/

/-- The tasks the two nested loops reach past the `continue`: every
`(job_config.name(), task.first)` of the cluster configuration except the pair
equal to `(dist_config_.job_name(), dist_config_.task_id())`, in loop order. -/
def recipients (cfg : DistributedContextConfiguration) : List (String × Int) :=
  cfg.cluster_config.jobs.flatMap fun job_config =>
    job_config.tasks.filterMap fun task =>
      if job_config.name = cfg.job_name ∧ task.1 = cfg.task_id then none
      else some (job_config.name, task.1)

/-- Every configured task, in loop order. -/
def allTasks (cfg : DistributedContextConfiguration) : List (String × Int) :=
  cfg.cluster_config.jobs.flatMap fun job_config =>
    job_config.tasks.map fun task => (job_config.name, task.1)

/-- A completion closure handed to the transport and not yet invoked: the
number of the call it belongs to and the request it captured. -/
structure Pending where
  call : Nat
  request : Request
  deriving DecidableEq, Repr

/-- State of one broadcast call, from the entry of the function until the
last completion. -/
structure Broadcast where
  rpc : Rpc
  ctx : DistributedContext
  /-- number of the next object to allocate -/
  heap : Nat
  /-- the object made before the loops: `base_request` (create) or `request` (close) -/
  shared_request : Nat
  /-- loop iterations still to run -/
  todo : List (String × Int)
  /-- the issuing function has returned and dropped its `rc_done` -/
  returned : Bool
  rc_done : RefCountedCallback
  /-- invocations of `done_callback`, oldest first -/
  done_calls : List Error
  /-- outbound calls, oldest first -/
  calls : List Call
  /-- completion closures the transport still holds -/
  pending : List Pending
  /-- arguments of the `UpdateState` calls, oldest first -/
  reported : List Error
  /-- pointers deleted by destroyed per-recipient requests -/
  deleted : List Ptr

/-- Sub-messages of the base request that a per-recipient request borrows. -/
def baseGroups (base : Nat) (cfg : DistributedContextConfiguration) : List Ptr :=
  (List.range cfg.collective_groups.length).map fun i => Ptr.collective_group base i

/-- Entry of `CreateRemoteContexts`: `rc_done` is made with one reference held by
the function, `base_request` is allocated and filled from `dist_config_`. -/
def DistributedContext.CreateRemoteContexts (ctx : DistributedContext) : Broadcast :=
  { rpc := Rpc.CreateContextAsync, ctx := ctx, heap := 1, shared_request := 0,
    todo := recipients ctx.dist_config_, returned := false,
    rc_done := { refs := 1, error := none },
    done_calls := [], calls := [], pending := [], reported := [], deleted := [] }

/-- Entry of `CloseRemoteContexts`: `rc_done` is made with one reference held by
the function, the one `CloseContextRequest` is allocated and given the context id. -/
def DistributedContext.CloseRemoteContexts (ctx : DistributedContext) : Broadcast :=
  { rpc := Rpc.CloseContextAsync, ctx := ctx, heap := 1, shared_request := 0,
    todo := recipients ctx.dist_config_, returned := false,
    rc_done := { refs := 1, error := none },
    done_calls := [], calls := [], pending := [], reported := [], deleted := [] }

/-- Body of the inner loop of `CreateRemoteContexts` for one recipient. -/
def Broadcast.createIteration (s : Broadcast) (job : String) (task : Int) : Broadcast :=
  let request_object := s.heap
  let request_dist_config : RequestDistConfig :=
    { job_name := job, task_id := task, cluster_config := none, collective_groups := [] }
  let request_dist_config :=
    request_dist_config.set_allocated_cluster_config (Ptr.cluster_config s.shared_request)
  let request_dist_config :=
    (baseGroups s.shared_request s.ctx.dist_config_).foldl
      RequestDistConfig.AddAllocated request_dist_config
  let request : CreateContextRequest :=
    { context_id := s.ctx.context_id_, dist_config := request_dist_config }
  let task_handle := s.ctx.GetTaskHandle job task
  let client := s.ctx.GetRemoteClient task_handle
  let response_object := s.heap + 1
  { s with
    ctx := client.2, heap := s.heap + 2,
    calls := s.calls ++ [{ rpc := Rpc.CreateContextAsync, client := client.1,
                           request_object := request_object,
                           response_object := response_object,
                           request := Request.create request }],
    pending := s.pending ++ [{ call := s.calls.length, request := Request.create request }],
    rc_done := s.rc_done.CopyRef }

/-- Body of the inner loop of `CloseRemoteContexts` for one recipient. -/
def Broadcast.closeIteration (s : Broadcast) (job : String) (task : Int) : Broadcast :=
  let request : CloseContextRequest := { context_id := s.ctx.context_id_ }
  let task_handle := s.ctx.GetTaskHandle job task
  let client := s.ctx.GetRemoteClient task_handle
  let response_object := s.heap
  { s with
    ctx := client.2, heap := s.heap + 1,
    calls := s.calls ++ [{ rpc := Rpc.CloseContextAsync, client := client.1,
                           request_object := s.shared_request,
                           response_object := response_object,
                           request := Request.close request }],
    pending := s.pending ++ [{ call := s.calls.length, request := Request.close request }],
    rc_done := s.rc_done.CopyRef }

/-- The completion lambda: `UpdateState`, then (create only) the release of the
borrowed fields of the captured request. Returns the callback state and the
request as the lambda leaves it. -/
def completionLambda (rc_done : RefCountedCallback) (request : Request) (e : Error) :
    RefCountedCallback × Request :=
  let rc_done := rc_done.UpdateState e
  match request with
  | Request.create r =>
    let request_dist_config := r.dist_config.release_cluster_config
    let request_dist_config :=
      RequestDistConfig.releaseLoop request_dist_config.collective_groups.length 0
        request_dist_config
    (rc_done, Request.create { r with dist_config := request_dist_config })
  | Request.close r => (rc_done, Request.close r)

/-- What happens next in a broadcast: the issuing thread runs its next loop
iteration (or returns when the loops are over), or the transport invokes the
completion of a call it still holds with an outcome, and then destroys it. -/
inductive Event where
  | run
  | complete (call : Nat) (e : Error)
  deriving DecidableEq, Repr

/-- One event. `none` when the event cannot happen in this state: the issuing
function has already returned, or the transport does not hold that closure
(every completion is invoked exactly once). -/
def Broadcast.step (s : Broadcast) : Event → Option Broadcast
  | Event.run =>
    if s.returned then none
    else
      match s.todo with
      | (job, task) :: rest =>
        match s.rpc with
        | Rpc.CreateContextAsync => some { s.createIteration job task with todo := rest }
        | Rpc.CloseContextAsync => some { s.closeIteration job task with todo := rest }
      | [] =>
        let (rc_done, fired) := s.rc_done.DropRef
        some { s with returned := true, rc_done := rc_done, done_calls := s.done_calls ++ fired }
  | Event.complete call e =>
    match s.pending.find? (fun p => p.call = call) with
    | none => none
    | some p =>
      let (rc_done, request) := completionLambda s.rc_done p.request e
      let (rc_done, fired) := rc_done.DropRef
      some { s with
        pending := s.pending.eraseP (fun q => q.call = call),
        reported := s.reported ++ [e],
        deleted := s.deleted ++ request.deletes,
        rc_done := rc_done,
        done_calls := s.done_calls ++ fired }

/-- A schedule of events, from a state. -/
def Broadcast.exec (s : Broadcast) : List Event → Option Broadcast
  | [] => some s
  | ev :: rest => (s.step ev).bind fun s' => s'.exec rest

/-- Outcomes delivered by a schedule, in completion order. -/
def completions : List Event → List Error
  | [] => []
  | Event.run :: rest => completions rest
  | Event.complete _ e :: rest => e :: completions rest

/-- The first error of a list of outcomes, success when there is none. -/
def firstError : List Error → Error
  | [] => none
  | none :: rest => firstError rest
  | some info :: _ => some info

/-- What holds in every state of a broadcast over `k` recipients. -/
structure Broadcast.Inv (k : Nat) (s : Broadcast) : Prop where
  refs : s.rc_done.refs = (if s.returned then 0 else 1) + s.pending.length
  fired : s.done_calls = if s.rc_done.refs = 0 then [s.rc_done.error] else []
  err : s.rc_done.error = firstError s.reported
  count : s.reported.length + s.pending.length = s.calls.length
  total : s.calls.length + s.todo.length = k
  ret : s.returned = true → s.todo = []

/-- A sequence of `GetRemoteClient` calls on one session: the clients returned,
in call order, and the session afterwards. -/
def DistributedContext.GetRemoteClients (ctx : DistributedContext) :
    List TaskHandle → List RemoteClient × DistributedContext
  | [] => ([], ctx)
  | task_handle :: rest =>
    let r := ctx.GetRemoteClient task_handle
    let rs := r.2.GetRemoteClients rest
    (r.1 :: rs.1, rs.2)

/-- The task a request names in its `dist_config` (create requests only; a
close request names none). -/
def Request.target : Request → Option (String × Int)
  | Request.create r => some (r.dist_config.job_name, r.dist_config.task_id)
  | Request.close _ => none

/-- The handles of the recipients, in loop order. -/
def recipientHandles (ctx : DistributedContext) : List TaskHandle :=
  (recipients ctx.dist_config_).map fun t => ctx.GetTaskHandle t.1 t.2

/-- What the issuing loops maintain, relative to the session `ctx0` the
broadcast was started on. -/
structure Broadcast.Issued (ctx0 : DistributedContext) (s : Broadcast) : Prop where
  cfg : s.ctx.dist_config_ = ctx0.dist_config_
  cid : s.ctx.context_id_ = ctx0.context_id_
  gth : s.ctx.GetTaskHandle = ctx0.GetTaskHandle
  clients : s.calls.map (fun c => c.client) ++
      (s.ctx.GetRemoteClients (s.todo.map fun t => ctx0.GetTaskHandle t.1 t.2)).1 =
    (ctx0.GetRemoteClients (recipientHandles ctx0)).1
  final : (s.ctx.GetRemoteClients (s.todo.map fun t => ctx0.GetTaskHandle t.1 t.2)).2 =
    (ctx0.GetRemoteClients (recipientHandles ctx0)).2
  targets : s.rpc = Rpc.CreateContextAsync →
    s.calls.map (fun c => c.request.target) ++ s.todo.map some =
      (recipients ctx0.dist_config_).map some
  kind : ∀ c ∈ s.calls, c.rpc = s.rpc
  shared : s.rpc = Rpc.CloseContextAsync → ∀ c ∈ s.calls,
    c.request_object = s.shared_request ∧
    c.request = Request.close { context_id := ctx0.context_id_ }
  fresh : s.shared_request < s.heap ∧ ∀ c ∈ s.calls, c.response_object < s.heap
  distinct : (s.calls.map fun c => c.response_object).Nodup ∧
    ∀ c ∈ s.calls, c.response_object ≠ s.shared_request

/-- Number of issued calls whose request names the task `t`. -/
def Broadcast.callsTo (s : Broadcast) (t : String × Int) : Nat :=
  (s.calls.filter fun c => decide (c.request.target = some t)).length

/-! ## Regular expressions (`llvm::Regex`)

`llvm::Regex` is a POSIX extended regular expression matcher. The pattern of
`task_name_util.cc` is anchored at both ends and is a concatenation of
sub-expressions, two of them parenthesised. The matcher gives every
sub-expression of a concatenation, from left to right, the longest substring
for which the remaining sub-expressions can still match the remainder. -/

/-- Regular expressions without groups. -/
inductive Regex where
  | empty
  | eps
  | chr (c : Char)
  | range (lo hi : Char)
  | any
  | alt (a b : Regex)
  | cat (a b : Regex)
  | star (a : Regex)
  deriving DecidableEq, Repr

/-- Does the expression match the empty string? -/
def Regex.nullable : Regex → Bool
  | Regex.empty => false
  | Regex.eps => true
  | Regex.chr _ => false
  | Regex.range _ _ => false
  | Regex.any => false
  | Regex.alt a b => a.nullable || b.nullable
  | Regex.cat a b => a.nullable && b.nullable
  | Regex.star _ => true

/-- The derivative: what remains to be matched after the character `c`. -/
def Regex.deriv : Regex → Char → Regex
  | Regex.empty, _ => Regex.empty
  | Regex.eps, _ => Regex.empty
  | Regex.chr d, c => if d = c then Regex.eps else Regex.empty
  | Regex.range lo hi, c => if lo ≤ c ∧ c ≤ hi then Regex.eps else Regex.empty
  | Regex.any, _ => Regex.eps
  | Regex.alt a b, c => Regex.alt (a.deriv c) (b.deriv c)
  | Regex.cat a b, c =>
    if a.nullable then Regex.alt (Regex.cat (a.deriv c) b) (b.deriv c)
    else Regex.cat (a.deriv c) b
  | Regex.star a, c => Regex.cat (a.deriv c) (Regex.star a)

/-- Does the expression match the whole of `s`? -/
def Regex.fullMatch (r : Regex) (s : List Char) : Bool :=
  (s.foldl Regex.deriv r).nullable

/-- A literal string. -/
def Regex.lit : List Char → Regex
  | [] => Regex.eps
  | c :: cs => Regex.cat (Regex.chr c) (Regex.lit cs)

/-- The repetition `a+`. -/
def Regex.plus (a : Regex) : Regex := Regex.cat a (Regex.star a)

/-- One sub-expression of the top-level concatenation; `captured` when it is
parenthesised. -/
structure Item where
  re : Regex
  captured : Bool
  deriving DecidableEq, Repr

/-- The first `some` among `f n, f (n-1), ..., f 0`. -/
def firstFrom {β : Type} (f : Nat → Option β) : Nat → Option β
  | 0 => f 0
  | n + 1 =>
    match f (n + 1) with
    | some b => some b
    | none => firstFrom f n

/-- Match of the anchored concatenation of `items` against the whole of `s`:
the captured substrings in order, `none` when there is no match. Every item
takes the longest prefix for which the rest can still match. -/
def matchItems : List Item → List Char → Option (List (List Char))
  | [], s => if s = [] then some [] else none
  | it :: rest, s =>
    firstFrom (fun n =>
      if it.re.fullMatch (s.take n) then
        (matchItems rest (s.drop n)).map fun caps =>
          if it.captured then s.take n :: caps else caps
      else none) s.length

/-- The call `llvm::Regex::match(s, &matches)`: entry 0 is the whole match, then the
groups. -/
def regexMatch (items : List Item) (s : List Char) : Option (List (List Char)) :=
  (matchItems items s).map fun caps => s :: caps

/-- The class `[a-zA-Z]`. -/
def reAlpha : Regex := Regex.alt (Regex.range 'a' 'z') (Regex.range 'A' 'Z')

/-- The class `[_a-zA-Z0-9]`. -/
def reWord : Regex :=
  Regex.alt (Regex.chr '_')
    (Regex.alt (Regex.range 'a' 'z') (Regex.alt (Regex.range 'A' 'Z') (Regex.range '0' '9')))

/-- The group `([a-zA-Z][_a-zA-Z0-9]*)`. -/
def reJobName : Regex := Regex.cat reAlpha (Regex.star reWord)

/-- The group `([0-9]|[1-9][0-9]+)`. -/
def reTaskId : Regex :=
  Regex.alt (Regex.range '0' '9')
    (Regex.cat (Regex.range '1' '9') (Regex.plus (Regex.range '0' '9')))

/-- The pattern `kTaskNameRegex`:
`^/job:([a-zA-Z][_a-zA-Z0-9]*)/task:([0-9]|[1-9][0-9]+).*$`. -/
def kTaskNameRegex : List Item :=
  [{ re := Regex.lit ['/', 'j', 'o', 'b', ':'], captured := false },
   { re := reJobName, captured := true },
   { re := Regex.lit ['/', 't', 'a', 's', 'k', ':'], captured := false },
   { re := reTaskId, captured := true },
   { re := Regex.star Regex.any, captured := false }]

/-! ## String to integer (`llvm::to_integer`) -/

/-- Value of a character as a digit, letters counting from ten. -/
def digitValue (c : Char) : Option Nat :=
  if '0' ≤ c ∧ c ≤ '9' then some (c.toNat - '0'.toNat)
  else if 'a' ≤ c ∧ c ≤ 'z' then some (c.toNat - 'a'.toNat + 10)
  else if 'A' ≤ c ∧ c ≤ 'Z' then some (c.toNat - 'A'.toNat + 10)
  else none

/-- The helper `GetAutoSenseRadix`: the radix announced by the prefix of the string,
and the string past that prefix. -/
def GetAutoSenseRadix (s : List Char) : Nat × List Char :=
  if s.take 2 = ['0', 'x'] ∨ s.take 2 = ['0', 'X'] then (16, s.drop 2)
  else if s.take 2 = ['0', 'b'] ∨ s.take 2 = ['0', 'B'] then (2, s.drop 2)
  else if s.take 2 = ['0', 'o'] then (8, s.drop 2)
  else
    match s with
    | c0 :: c1 :: _ => if c0 = '0' ∧ c1.isDigit then (8, s.drop 1) else (10, s)
    | _ => (10, s)

/-- The digit loop of `consumeUnsignedInteger` on an `unsigned long long`
accumulator: `none` on overflow, else the value and the unread rest. -/
def consumeLoop (radix : Nat) : List Char → Nat → Option (Nat × List Char)
  | [], acc => some (acc, [])
  | c :: cs, acc =>
    match digitValue c with
    | none => some (acc, c :: cs)
    | some v =>
      if radix ≤ v then some (acc, c :: cs)
      else
        let result := (acc * radix + v) % 2 ^ 64
        if result / radix < acc then none else consumeLoop radix cs result

/-- The function `llvm::consumeUnsignedInteger`; `none` is the failure return. -/
def consumeUnsignedInteger (s : List Char) (radix : Nat) : Option (Nat × List Char) :=
  let sensed := if radix = 0 then GetAutoSenseRadix s else (radix, s)
  if sensed.2 = [] then none
  else
    match consumeLoop sensed.1 sensed.2 0 with
    | none => none
    | some (result, rest) => if rest.length = sensed.2.length then none else some (result, rest)

/-- The function `llvm::consumeSignedInteger` into a `long long`. -/
def consumeSignedInteger (s : List Char) (radix : Nat) : Option (Int × List Char) :=
  if s.head? ≠ some '-' then
    match consumeUnsignedInteger s radix with
    | none => none
    | some (u, rest) => if 2 ^ 63 ≤ u then none else some ((u : Int), rest)
  else
    match consumeUnsignedInteger (s.drop 1) radix with
    | none => none
    | some (u, rest) => if 2 ^ 63 < u then none else some (-(u : Int), rest)

/-- The function `llvm::getAsSignedInteger`: the whole string must be consumed. -/
def getAsSignedInteger (s : List Char) (radix : Nat) : Option Int :=
  match consumeSignedInteger s radix with
  | none => none
  | some (v, rest) => if rest = [] then some v else none

/-- The call `llvm::to_integer(s, num)` for `int num`, radix auto-sensed: `none` when
it returns false and leaves `num` alone. -/
def to_integer (s : List Char) : Option Int :=
  match getAsSignedInteger s 0 with
  | none => none
  | some v => if -(2 : Int) ^ 31 ≤ v ∧ v < (2 : Int) ^ 31 then some v else none

/-! ## TaskNameUtil -/

/-- Modelled from the spec: `StrCat` of `tfrt/support/string_util.h` prints an `int`
argument in decimal, with a minus sign when negative. -/
def renderInt (i : Int) : List Char :=
  if i < 0 then '-' :: Nat.toDigits 10 i.natAbs else Nat.toDigits 10 i.toNat

/-- The function `TaskNameUtil::ConcatTaskName`. -/
def ConcatTaskName (job_name : String) (task_id : Int) : String :=
  String.mk (['/', 'j', 'o', 'b', ':'] ++ job_name.data ++ ['/', 't', 'a', 's', 'k', ':'] ++
    renderInt task_id)

/-- What `ParseTaskName` leaves behind: the returned error and the two output
parameters. -/
structure ParseResult where
  error : Error
  out_job_name : String
  out_task_id : Int
  deriving DecidableEq, Repr

/-- The function `TaskNameUtil::ParseTaskName`; `out_job_name` and `out_task_id` are the
values the output parameters hold on entry. -/
def ParseTaskName (task_name : String) (out_job_name : String) (out_task_id : Int) :
    ParseResult :=
  match regexMatch kTaskNameRegex task_name.data with
  | none =>
    let error_message := ""
    { error := some { code := ErrorCode.InvalidArgument,
                      message := "Error parsing task name \"" ++ task_name ++ "\": " ++
                        error_message },
      out_job_name := out_job_name, out_task_id := out_task_id }
  | some matched =>
    { error := none,
      out_job_name := String.mk (matched.getD 1 []),
      out_task_id := (to_integer (matched.getD 2 [])).getD out_task_id }

/-! ## Example sessions -/

/-- A cluster of one job `worker` with the tasks 0, 1 and 2. -/
def exampleCluster : ClusterConfiguration :=
  { jobs := [{ name := "worker", tasks := [(0, "host0:1"), (1, "host1:1"), (2, "host2:1")] }] }

/-- The example session configuration: the session is opened on task 0. -/
def exampleConfig : DistributedContextConfiguration :=
  { job_name := "worker", task_id := 0, cluster_config := exampleCluster,
    collective_groups :=
      [{ name := "g", members := ["/job:worker/task:2", "/job:worker/task:0"] },
       { name := "h", members := ["/job:worker/task:1"] }] }

/-- A cluster info for the example cluster: task `i` has handle `i`, every
other name is not found. -/
def exampleClusterInfo : ClusterInfo :=
  { GetTaskHandle := fun task_name =>
      match Map.find [("/job:worker/task:0", 0), ("/job:worker/task:1", 1),
          ("/job:worker/task:2", 2)] task_name with
      | some task_handle => Result.value task_handle
      | none => Result.error { code := ErrorCode.NotFound, message := task_name } }

/-- A freshly constructed session over `exampleConfig`. -/
def exampleContext : DistributedContext :=
  { context_id_ := 7, dist_config_ := exampleConfig,
    cluster_info_ := exampleClusterInfo,
    GetTaskHandle := fun _ task => task.toNat,
    collective_groups_ := [], remote_clients_ := [], communicator := { created := [] } }

/-- The error of the failing call in the examples. -/
def unavailable : ErrorInfo := { code := ErrorCode.Unavailable, message := "unavailable" }

/-- A schedule of the example broadcast: both calls are issued, the call to
task 2 fails while the issuing function is still running, the function
returns, the call to task 1 succeeds. -/
def exampleSchedule : List Event :=
  [Event.run, Event.run, Event.complete 1 (some unavailable), Event.run, Event.complete 0 none]

/-- A session whose cluster has the one task it runs on. -/
def soloContext : DistributedContext :=
  { context_id_ := 3,
    dist_config_ :=
      { job_name := "worker", task_id := 0,
        cluster_config := { jobs := [{ name := "worker", tasks := [(0, "host0:1")] }] },
        collective_groups := [] },
    cluster_info_ := exampleClusterInfo,
    GetTaskHandle := fun _ task => task.toNat,
    collective_groups_ := [], remote_clients_ := [], communicator := { created := [] } }

/-- A configuration with a collective group member that is not in the cluster. -/
def strayMemberConfig : DistributedContextConfiguration :=
  { exampleConfig with
    collective_groups :=
      [{ name := "g", members := ["/job:worker/task:1", "/job:worker/task:9"] }] }

/-- A configuration that declares the group name `g` twice. -/
def twiceDeclaredConfig : DistributedContextConfiguration :=
  { exampleConfig with
    collective_groups :=
      [{ name := "g", members := ["/job:worker/task:2"] },
       { name := "g", members := ["/job:worker/task:0", "/job:worker/task:1"] }] }

/-! ## Theorems: the fan-in of a broadcast -/

theorem firstError_snoc (l : List Error) (e : Error) :
    firstError (l ++ [e]) = (firstError l).orElse fun _ => e := by
  induction l with
  | nil => cases e <;> rfl
  | cons a l ih => cases a <;> simp [firstError, ih]

theorem UpdateState_error (cb : RefCountedCallback) (e : Error) :
    (cb.UpdateState e).error = cb.error.orElse fun _ => e := by
  unfold RefCountedCallback.UpdateState
  cases h : cb.error <;> cases e <;> simp [h]

theorem UpdateState_refs (cb : RefCountedCallback) (e : Error) :
    (cb.UpdateState e).refs = cb.refs := by
  unfold RefCountedCallback.UpdateState
  cases cb.error <;> cases e <;> rfl

theorem completionLambda_fst (cb : RefCountedCallback) (r : Request) (e : Error) :
    (completionLambda cb r e).1 = cb.UpdateState e := by
  cases r <;> rfl

theorem Inv_create (ctx : DistributedContext) :
    Broadcast.Inv (recipients ctx.dist_config_).length ctx.CreateRemoteContexts := by
  constructor <;> simp [DistributedContext.CreateRemoteContexts, firstError]

theorem Inv_close (ctx : DistributedContext) :
    Broadcast.Inv (recipients ctx.dist_config_).length ctx.CloseRemoteContexts := by
  constructor <;> simp [DistributedContext.CloseRemoteContexts, firstError]

theorem Inv_step {k : Nat} {s s' : Broadcast} {ev : Event} (hs : s.Inv k)
    (h : s.step ev = some s') : s'.Inv k := by
  obtain ⟨hrefs, hfired, herr, hcount, htotal, hret⟩ := hs
  cases ev with
  | run =>
    simp only [Broadcast.step] at h
    cases hr : s.returned with
    | true => simp [hr] at h
    | false =>
      simp only [hr, Bool.false_eq_true, if_false] at h hrefs
      cases htodo : s.todo with
      | cons t rest =>
        obtain ⟨job, task⟩ := t
        have hne : s.rc_done.refs ≠ 0 := by omega
        rw [htodo] at h htotal
        cases hrpc : s.rpc <;> simp only [hrpc, Option.some.injEq] at h <;> subst h <;>
          constructor <;>
          simp_all [Broadcast.createIteration, Broadcast.closeIteration,
            RefCountedCallback.CopyRef] <;> omega
      | nil =>
        rw [htodo] at h
        simp only [Option.some.injEq] at h
        subst h
        by_cases hp : s.pending.length = 0
        · constructor <;>
            simp_all [RefCountedCallback.DropRef]
        · have hne : s.rc_done.refs - 1 ≠ 0 := by omega
          have hne' : s.rc_done.refs ≠ 0 := by omega
          constructor <;>
            simp_all [RefCountedCallback.DropRef]
  | complete call e =>
    simp only [Broadcast.step] at h
    cases hf : s.pending.find? (fun p => p.call = call) with
    | none => simp [hf] at h
    | some p =>
      have hmem : p ∈ s.pending := List.mem_of_find?_eq_some hf
      have hp : decide (p.call = call) = true :=
        List.find?_some (p := fun q : Pending => decide (q.call = call)) hf
      have hlen := List.length_eraseP_of_mem (p := fun q : Pending => decide (q.call = call)) hmem hp
      have hpos : 0 < s.pending.length := List.length_pos_of_mem hmem
      have hne : s.rc_done.refs ≠ 0 := by omega
      simp only [hf, Option.some.injEq] at h
      subst h
      have hU := UpdateState_refs s.rc_done e
      have hE := UpdateState_error s.rc_done e
      have hL := completionLambda_fst s.rc_done p.request e
      by_cases hz : s.rc_done.refs - 1 = 0
      · constructor <;>
          simp_all [RefCountedCallback.DropRef, firstError_snoc] <;> omega
      · constructor <;>
          simp_all [RefCountedCallback.DropRef, firstError_snoc] <;> omega

theorem exec_append (s : Broadcast) (a b : List Event) :
    s.exec (a ++ b) = (s.exec a).bind fun s' => s'.exec b := by
  induction a generalizing s with
  | nil => simp [Broadcast.exec]
  | cons ev a ih =>
    simp only [List.cons_append, Broadcast.exec]
    cases s.step ev with
    | none => rfl
    | some s1 => simpa using ih s1

theorem Inv_exec {k : Nat} {s s' : Broadcast} {evs : List Event} (hs : s.Inv k)
    (h : s.exec evs = some s') : s'.Inv k := by
  induction evs generalizing s with
  | nil =>
    simp only [Broadcast.exec, Option.some.injEq] at h
    exact h ▸ hs
  | cons ev evs ih =>
    simp only [Broadcast.exec] at h
    cases hstep : s.step ev with
    | none => simp [hstep] at h
    | some s1 =>
      rw [hstep] at h
      exact ih (Inv_step hs hstep) h

theorem reported_step {s s' : Broadcast} {ev : Event} (h : s.step ev = some s') :
    s'.reported = s.reported ++ completions [ev] := by
  cases ev with
  | run =>
    simp only [Broadcast.step] at h
    cases hr : s.returned with
    | true => simp [hr] at h
    | false =>
      simp only [hr, Bool.false_eq_true, if_false] at h
      cases htodo : s.todo with
      | cons t rest =>
        rw [htodo] at h
        cases hrpc : s.rpc <;> simp only [hrpc, Option.some.injEq] at h <;> subst h <;>
          simp [Broadcast.createIteration, Broadcast.closeIteration, completions]
      | nil =>
        rw [htodo] at h
        simp only [Option.some.injEq] at h
        subst h
        simp [completions]
  | complete call e =>
    simp only [Broadcast.step] at h
    cases hf : s.pending.find? (fun p => p.call = call) with
    | none => simp [hf] at h
    | some p =>
      simp only [hf, Option.some.injEq] at h
      subst h
      simp [completions]

theorem completions_cons (ev : Event) (evs : List Event) :
    completions (ev :: evs) = completions [ev] ++ completions evs := by
  cases ev <;> simp [completions]

theorem reported_exec {s s' : Broadcast} {evs : List Event} (h : s.exec evs = some s') :
    s'.reported = s.reported ++ completions evs := by
  induction evs generalizing s with
  | nil =>
    simp only [Broadcast.exec, Option.some.injEq] at h
    simp [← h, completions]
  | cons ev evs ih =>
    simp only [Broadcast.exec] at h
    cases hstep : s.step ev with
    | none => simp [hstep] at h
    | some s1 =>
      rw [hstep] at h
      rw [ih h, reported_step hstep, completions_cons ev evs, List.append_assoc]

/-- In a state of a broadcast over `k` recipients: the user completion has
fired at most once, not before all `k` outcomes were reported, and once the
issuing function has returned and no closure is left it has fired exactly once
with the first error reported. -/
theorem Inv_done {k : Nat} {s : Broadcast} (hs : s.Inv k) :
    s.done_calls.length ≤ 1 ∧
    (s.reported.length < k → s.done_calls = []) ∧
    (s.returned = true → s.pending = [] →
      s.calls.length = k ∧ s.reported.length = k ∧
      s.done_calls = [firstError s.reported]) := by
  obtain ⟨hrefs, hfired, herr, hcount, htotal, hret⟩ := hs
  refine ⟨?_, ?_, ?_⟩
  · rw [hfired]
    split <;> simp
  · intro hlt
    have hne : s.rc_done.refs ≠ 0 := by
      cases hr : s.returned with
      | true =>
        have := hret hr
        simp [this] at htotal
        simp [hr] at hrefs
        omega
      | false =>
        simp [hr] at hrefs
        omega
    rw [hfired, if_neg hne]
  · intro hr hp
    have htodo := hret hr
    simp [htodo] at htotal
    simp [hp] at hcount
    simp [hr, hp] at hrefs
    rw [hfired, if_pos hrefs, herr]
    exact ⟨htotal, by omega, rfl⟩

theorem step_run_issue {s : Broadcast} {job : String} {task : Int} {rest : List (String × Int)}
    (hr : s.returned = false) (htodo : s.todo = (job, task) :: rest) :
    ∃ s1, s.step Event.run = some s1 ∧ s1.todo = rest ∧ s1.returned = false ∧
      s1.rpc = s.rpc ∧
      s1.pending.map (fun p => p.call) = s.pending.map (fun p => p.call) ++ [s.calls.length] ∧
      s1.calls.length = s.calls.length + 1 := by
  cases hrpc : s.rpc <;>
    simp [Broadcast.step, hr, htodo, hrpc, Broadcast.createIteration, Broadcast.closeIteration]

theorem exec_issue_all (n : Nat) (s : Broadcast) (hr : s.returned = false)
    (hn : s.todo.length = n) :
    ∃ s1, s.exec (List.replicate n Event.run) = some s1 ∧ s1.todo = [] ∧
      s1.returned = false ∧
      s1.pending.map (fun p => p.call) =
        s.pending.map (fun p => p.call) ++ List.range' s.calls.length n := by
  induction n generalizing s with
  | zero =>
    refine ⟨s, rfl, ?_, hr, by simp⟩
    exact List.length_eq_zero.mp hn
  | succ n ih =>
    cases htodo : s.todo with
    | nil => simp [htodo] at hn
    | cons t rest =>
      obtain ⟨job, task⟩ := t
      obtain ⟨s1, hstep, ht1, hr1, -, hp1, hc1⟩ := step_run_issue hr htodo
      have hn1 : s1.todo.length = n := by
        rw [ht1]
        simpa [htodo] using hn
      obtain ⟨s2, hexec, ht2, hr2, hp2⟩ := ih s1 hr1 hn1
      refine ⟨s2, ?_, ht2, hr2, ?_⟩
      · simp [List.replicate_succ, Broadcast.exec, hstep, hexec]
      · rw [hp2, hp1, hc1, List.append_assoc]
        rfl

theorem step_run_return {s : Broadcast} (hr : s.returned = false) (htodo : s.todo = []) :
    ∃ s1, s.step Event.run = some s1 ∧ s1.returned = true ∧ s1.pending = s.pending := by
  simp [Broadcast.step, hr, htodo]

theorem map_call_eraseP (l : List Pending) (i : Nat) :
    (l.eraseP fun q => q.call = i).map (fun p => p.call) = (l.map fun p => p.call).erase i := by
  induction l with
  | nil => rfl
  | cons p l ih =>
    by_cases h : p.call = i
    · simp [List.eraseP_cons, h]
    · have h' : (p.call == i) = false := by simpa using h
      simp [List.eraseP_cons, h, List.erase_cons, h', ih]

theorem step_complete {s : Broadcast} {i : Nat} (e : Error)
    (hi : i ∈ s.pending.map fun p => p.call) :
    ∃ s1, s.step (Event.complete i e) = some s1 ∧ s1.returned = s.returned ∧
      s1.pending = s.pending.eraseP fun q => q.call = i := by
  obtain ⟨p, hp, hpi⟩ := List.mem_map.mp hi
  have hsome : (s.pending.find? fun q => q.call = i).isSome = true :=
    List.find?_isSome.mpr ⟨p, hp, by simpa using hpi⟩
  obtain ⟨q, hq⟩ := Option.isSome_iff_exists.mp hsome
  simp [Broadcast.step, hq]

theorem exec_deliver_all (outcome : Nat → Error) (order : List Nat) (s : Broadcast)
    (hperm : (s.pending.map fun p => p.call).Perm order) :
    ∃ s1, s.exec (order.map fun i => Event.complete i (outcome i)) = some s1 ∧
      s1.returned = s.returned ∧ s1.pending = [] := by
  induction order generalizing s with
  | nil =>
    refine ⟨s, rfl, rfl, ?_⟩
    simpa using hperm.eq_nil
  | cons i rest ih =>
    have hi : i ∈ s.pending.map fun p => p.call := hperm.symm.subset (List.mem_cons_self i rest)
    obtain ⟨s1, hstep, hr1, hp1⟩ := step_complete (outcome i) hi
    have hperm1 : (s1.pending.map fun p => p.call).Perm rest := by
      rw [hp1, map_call_eraseP]
      simpa using hperm.erase i
    obtain ⟨s2, hexec, hr2, hp2⟩ := ih s1 hperm1
    exact ⟨s2, by simp [Broadcast.exec, hstep, hexec], hr2.trans hr1, hp2⟩

/-- Every completion order and every assignment of outcomes is a schedule of
the broadcast: the issuing function runs to its return, then the transport
delivers the outcomes in the given order. -/
theorem exec_any_order (s : Broadcast) (hr : s.returned = false) (hp : s.pending = [])
    (hc : s.calls = []) (outcome : Nat → Error) (order : List Nat)
    (hperm : order.Perm (List.range s.todo.length)) :
    ∃ s1, s.exec (List.replicate (s.todo.length + 1) Event.run ++
        order.map fun i => Event.complete i (outcome i)) = some s1 ∧
      s1.returned = true ∧ s1.pending = [] := by
  obtain ⟨s1, hexec1, ht1, hr1, hp1⟩ := exec_issue_all s.todo.length s hr rfl
  obtain ⟨s2, hstep2, hr2, hp2⟩ := step_run_return hr1 ht1
  have hperm2 : (s2.pending.map fun p => p.call).Perm order := by
    rw [hp2, hp1, hp, hc]
    simpa [List.range_eq_range'] using hperm.symm
  obtain ⟨s3, hexec3, hr3, hp3⟩ := exec_deliver_all outcome order s2 hperm2
  refine ⟨s3, ?_, hr3.trans hr2, hp3⟩
  rw [exec_append, List.replicate_succ', exec_append, hexec1]
  simp [Broadcast.exec, hstep2, hexec3]

/-- C1: for a session with `k ≥ 1` remote peers, every completion order with
every assignment of outcomes is a schedule of `CreateRemoteContexts` that ends
with no completion outstanding; and in every state of every schedule the done
callback has fired at most once, has not fired while fewer than `k`
completions were reported, and, once the function has returned and all
completions were delivered, has fired exactly once, with success when all
outcomes are successes and otherwise with the first error in completion
order. -/
theorem CreateRemoteContexts_done_exactly_once (ctx : DistributedContext)
    (hk : 1 ≤ (recipients ctx.dist_config_).length) :
    (∀ (outcome : Nat → Error) (order : List Nat),
      order.Perm (List.range (recipients ctx.dist_config_).length) →
      ∃ s, ctx.CreateRemoteContexts.exec
          (List.replicate ((recipients ctx.dist_config_).length + 1) Event.run ++
            order.map fun i => Event.complete i (outcome i)) = some s ∧
        s.returned = true ∧ s.pending = []) ∧
    (∀ (evs : List Event) (s : Broadcast), ctx.CreateRemoteContexts.exec evs = some s →
      s.reported = completions evs ∧
      s.done_calls.length ≤ 1 ∧
      ((completions evs).length < (recipients ctx.dist_config_).length → s.done_calls = []) ∧
      (s.returned = true → s.pending = [] →
        s.calls.length = (recipients ctx.dist_config_).length ∧
        (completions evs).length = (recipients ctx.dist_config_).length ∧
        s.done_calls = [firstError (completions evs)])) := by
  have _ := hk
  refine ⟨?_, ?_⟩
  · intro outcome order hperm
    exact exec_any_order ctx.CreateRemoteContexts rfl rfl rfl outcome order hperm
  · intro evs s h
    have hrep : s.reported = completions evs := by
      simpa [DistributedContext.CreateRemoteContexts] using reported_exec h
    have hdone := Inv_done (Inv_exec (Inv_create ctx) h)
    rw [hrep] at hdone
    exact ⟨hrep, hdone⟩

/-- C1, on the example session: task 2's call fails with "unavailable", task
1's succeeds, and the done callback fires once with "unavailable". -/
theorem CreateRemoteContexts_done_exactly_once_witness :
    1 ≤ (recipients exampleContext.dist_config_).length ∧
    (exampleContext.CreateRemoteContexts.exec exampleSchedule).map (fun s => s.done_calls)
      = some [some unavailable] := by
  have hk : 1 ≤ (recipients exampleContext.dist_config_).length := by decide
  have hsome : (exampleContext.CreateRemoteContexts.exec exampleSchedule).isSome = true := by
    decide
  have hret : (exampleContext.CreateRemoteContexts.exec exampleSchedule).map
      (fun s => s.returned) = some true := by decide
  have hpend : (exampleContext.CreateRemoteContexts.exec exampleSchedule).map
      (fun s => s.pending) = some [] := by decide
  obtain ⟨s, hrun⟩ := Option.isSome_iff_exists.mp hsome
  rw [hrun] at hret hpend ⊢
  simp only [Option.map_some', Option.some.injEq] at hret hpend ⊢
  have h := (CreateRemoteContexts_done_exactly_once exampleContext hk).2 exampleSchedule s hrun
  refine ⟨hk, ?_⟩
  rw [(h.2.2.2 hret hpend).2.2]
  rfl

/-! ## Theorems: the calls a broadcast issues -/

theorem GetRemoteClient_fields (ctx : DistributedContext) (h : TaskHandle) :
    (ctx.GetRemoteClient h).2.dist_config_ = ctx.dist_config_ ∧
    (ctx.GetRemoteClient h).2.context_id_ = ctx.context_id_ ∧
    (ctx.GetRemoteClient h).2.GetTaskHandle = ctx.GetTaskHandle := by
  unfold DistributedContext.GetRemoteClient
  cases Map.find ctx.remote_clients_ h <;> simp

theorem foldl_AddAllocated (l : List Ptr) (d : RequestDistConfig) :
    l.foldl RequestDistConfig.AddAllocated d =
      { d with collective_groups := d.collective_groups ++ l } := by
  induction l generalizing d with
  | nil => simp
  | cons p l ih => simp [ih, RequestDistConfig.AddAllocated]

theorem Issued_create (ctx : DistributedContext) : ctx.CreateRemoteContexts.Issued ctx := by
  constructor <;> simp [DistributedContext.CreateRemoteContexts, recipientHandles]

theorem Issued_close (ctx : DistributedContext) : ctx.CloseRemoteContexts.Issued ctx := by
  constructor <;> simp [DistributedContext.CloseRemoteContexts, recipientHandles]

theorem Issued_createIteration {ctx0 : DistributedContext} {s : Broadcast} {job : String}
    {task : Int} {rest : List (String × Int)} (hs : s.Issued ctx0)
    (hrpc : s.rpc = Rpc.CreateContextAsync) (htodo : s.todo = (job, task) :: rest) :
    Broadcast.Issued ctx0 { s.createIteration job task with todo := rest } := by
  obtain ⟨hcfg, hcid, hgth, hclients, hfinal, htargets, hkind, hshared, hfresh, hdistinct⟩ := hs
  have hfresh1 := hfresh.1
  have hf := GetRemoteClient_fields s.ctx (s.ctx.GetTaskHandle job task)
  rw [htodo] at hclients hfinal htargets
  simp only [List.map_cons, DistributedContext.GetRemoteClients] at hclients hfinal htargets
  rw [← hgth] at hclients hfinal
  constructor
  · simpa [Broadcast.createIteration, hcfg] using hf.1
  · simpa [Broadcast.createIteration, hcid] using hf.2.1
  · simpa [Broadcast.createIteration, hgth] using hf.2.2
  · simpa [Broadcast.createIteration, ← hgth] using hclients
  · simpa [Broadcast.createIteration, ← hgth] using hfinal
  · intro _
    have := htargets hrpc
    simpa [Broadcast.createIteration, Request.target, foldl_AddAllocated,
      RequestDistConfig.set_allocated_cluster_config, ← hcfg] using this
  · intro c hc
    simp only [Broadcast.createIteration, List.mem_append, List.mem_singleton] at hc ⊢
    rcases hc with hc | hc
    · exact hkind c hc
    · rw [hc, hrpc]
  · intro hclose
    simp [Broadcast.createIteration, hrpc] at hclose
  · refine ⟨?_, ?_⟩
    · dsimp only [Broadcast.createIteration]
      omega
    · intro c hc
      dsimp only [Broadcast.createIteration] at hc ⊢
      simp only [List.mem_append, List.mem_singleton] at hc
      rcases hc with hc | hc
      · have := hfresh.2 c hc
        omega
      · rw [hc]
        simp
  · refine ⟨?_, ?_⟩
    · dsimp only [Broadcast.createIteration]
      simp only [List.map_append, List.map_cons, List.map_nil]
      rw [List.nodup_append]
      refine ⟨hdistinct.1, by simp, ?_⟩
      intro a ha hb
      obtain ⟨c, hc, rfl⟩ := List.mem_map.mp ha
      have := hfresh.2 c hc
      simp at hb
      omega
    · intro c hc
      dsimp only [Broadcast.createIteration] at hc ⊢
      simp only [List.mem_append, List.mem_singleton] at hc
      rcases hc with hc | hc
      · exact hdistinct.2 c hc
      · rw [hc]
        simp only
        omega

theorem Issued_closeIteration {ctx0 : DistributedContext} {s : Broadcast} {job : String}
    {task : Int} {rest : List (String × Int)} (hs : s.Issued ctx0)
    (hrpc : s.rpc = Rpc.CloseContextAsync) (htodo : s.todo = (job, task) :: rest) :
    Broadcast.Issued ctx0 { s.closeIteration job task with todo := rest } := by
  obtain ⟨hcfg, hcid, hgth, hclients, hfinal, -, hkind, hshared, hfresh, hdistinct⟩ := hs
  have hfresh1 := hfresh.1
  have hf := GetRemoteClient_fields s.ctx (s.ctx.GetTaskHandle job task)
  rw [htodo] at hclients hfinal
  simp only [List.map_cons, DistributedContext.GetRemoteClients] at hclients hfinal
  rw [← hgth] at hclients hfinal
  constructor
  · simpa [Broadcast.closeIteration, hcfg] using hf.1
  · simpa [Broadcast.closeIteration, hcid] using hf.2.1
  · simpa [Broadcast.closeIteration, hgth] using hf.2.2
  · simpa [Broadcast.closeIteration, ← hgth] using hclients
  · simpa [Broadcast.closeIteration, ← hgth] using hfinal
  · intro hcreate
    simp [Broadcast.closeIteration, hrpc] at hcreate
  · intro c hc
    dsimp only [Broadcast.closeIteration] at hc ⊢
    simp only [List.mem_append, List.mem_singleton] at hc
    rcases hc with hc | hc
    · exact hkind c hc
    · rw [hc, hrpc]
  · intro _ c hc
    dsimp only [Broadcast.closeIteration] at hc ⊢
    simp only [List.mem_append, List.mem_singleton] at hc
    rcases hc with hc | hc
    · exact hshared hrpc c hc
    · rw [hc]
      simp [hcid]
  · refine ⟨?_, ?_⟩
    · dsimp only [Broadcast.closeIteration]
      omega
    · intro c hc
      dsimp only [Broadcast.closeIteration] at hc ⊢
      simp only [List.mem_append, List.mem_singleton] at hc
      rcases hc with hc | hc
      · have := hfresh.2 c hc
        omega
      · rw [hc]
        simp
  · refine ⟨?_, ?_⟩
    · dsimp only [Broadcast.closeIteration]
      simp only [List.map_append, List.map_cons, List.map_nil]
      rw [List.nodup_append]
      refine ⟨hdistinct.1, by simp, ?_⟩
      intro a ha hb
      obtain ⟨c, hc, rfl⟩ := List.mem_map.mp ha
      have := hfresh.2 c hc
      simp at hb
      omega
    · intro c hc
      dsimp only [Broadcast.closeIteration] at hc ⊢
      simp only [List.mem_append, List.mem_singleton] at hc
      rcases hc with hc | hc
      · exact hdistinct.2 c hc
      · rw [hc]
        simp only
        omega

theorem Issued_step {ctx0 : DistributedContext} {s s' : Broadcast} {ev : Event}
    (hs : s.Issued ctx0) (h : s.step ev = some s') : s'.Issued ctx0 := by
  cases ev with
  | run =>
    simp only [Broadcast.step] at h
    cases hr : s.returned with
    | true => simp [hr] at h
    | false =>
      simp only [hr, Bool.false_eq_true, if_false] at h
      cases htodo : s.todo with
      | cons t rest =>
        obtain ⟨job, task⟩ := t
        rw [htodo] at h
        cases hrpc : s.rpc with
        | CreateContextAsync =>
          simp only [hrpc, Option.some.injEq] at h
          exact h ▸ Issued_createIteration hs hrpc htodo
        | CloseContextAsync =>
          simp only [hrpc, Option.some.injEq] at h
          exact h ▸ Issued_closeIteration hs hrpc htodo
      | nil =>
        rw [htodo] at h
        simp only [Option.some.injEq] at h
        subst h
        obtain ⟨h1, h2, h3, h4, h5, h6, h7, h8, h9, h10⟩ := hs
        rw [htodo] at h4 h5 h6
        exact ⟨h1, h2, h3, h4, h5, h6, h7, h8, h9, h10⟩
  | complete call e =>
    simp only [Broadcast.step] at h
    cases hf : s.pending.find? (fun p => p.call = call) with
    | none => simp [hf] at h
    | some p =>
      simp only [hf, Option.some.injEq] at h
      subst h
      obtain ⟨h1, h2, h3, h4, h5, h6, h7, h8, h9, h10⟩ := hs
      exact ⟨h1, h2, h3, h4, h5, h6, h7, h8, h9, h10⟩

theorem Issued_exec {ctx0 : DistributedContext} {s s' : Broadcast} {evs : List Event}
    (hs : s.Issued ctx0) (h : s.exec evs = some s') : s'.Issued ctx0 := by
  induction evs generalizing s with
  | nil =>
    simp only [Broadcast.exec, Option.some.injEq] at h
    exact h ▸ hs
  | cons ev evs ih =>
    simp only [Broadcast.exec] at h
    cases hstep : s.step ev with
    | none => simp [hstep] at h
    | some s1 =>
      rw [hstep] at h
      exact ih (Issued_step hs hstep) h

theorem filterMap_self (name : String) (self : String × Int) (tasks : List (Int × String)) :
    (tasks.filterMap fun task =>
      if name = self.1 ∧ task.1 = self.2 then none else some (name, task.1)) =
    (tasks.map fun task => (name, task.1)).filter fun t => decide (t ≠ self) := by
  induction tasks with
  | nil => rfl
  | cons task tasks ih =>
    rw [List.filterMap_cons, List.map_cons, List.filter_cons, ← ih]
    by_cases h : name = self.1 ∧ task.1 = self.2
    · have heq : (name, task.1) = self := Prod.ext h.1 h.2
      rw [if_pos h, if_neg (by simp [heq])]
    · have hne : (name, task.1) ≠ self := fun heq => h ⟨congrArg Prod.fst heq, congrArg Prod.snd heq⟩
      rw [if_neg h, if_pos (decide_eq_true hne)]

theorem recipients_eq_filter (cfg : DistributedContextConfiguration) :
    recipients cfg = (allTasks cfg).filter fun t => decide (t ≠ (cfg.job_name, cfg.task_id)) := by
  unfold recipients allTasks
  induction cfg.cluster_config.jobs with
  | nil => rfl
  | cons job_config jobs ih =>
    simp only [List.flatMap_cons, List.filter_append, ih]
    congr 1
    exact filterMap_self job_config.name (cfg.job_name, cfg.task_id) job_config.tasks

theorem length_filter_ne {α : Type} [DecidableEq α] (a : α) (l : List α) (hnodup : l.Nodup)
    (ha : a ∈ l) : (l.filter fun t => decide (t ≠ a)).length + 1 = l.length := by
  induction l with
  | nil => simp at ha
  | cons b l ih =>
    rw [List.nodup_cons] at hnodup
    by_cases hb : b = a
    · subst hb
      have hall : (l.filter fun t => decide (t ≠ b)) = l := by
        rw [List.filter_eq_self]
        intro t ht
        exact decide_eq_true fun h => hnodup.1 (h ▸ ht)
      rw [List.filter_cons, if_neg (by simp), hall, List.length_cons]
    · have ha' : a ∈ l := by
        rcases List.mem_cons.mp ha with h | h
        · exact absurd h.symm hb
        · exact h
      rw [List.filter_cons, if_pos (decide_eq_true hb), List.length_cons, ih hnodup.2 ha',
        List.length_cons]

theorem count_eq_one_of_nodup {α : Type} [BEq α] [LawfulBEq α] {a : α} {l : List α}
    (hnodup : l.Nodup) (ha : a ∈ l) : l.count a = 1 := by
  induction l with
  | nil => simp at ha
  | cons b l ih =>
    rw [List.nodup_cons] at hnodup
    rw [List.count_cons]
    by_cases hb : b = a
    · subst hb
      have h0 : l.count b = 0 := List.count_eq_zero.mpr hnodup.1
      simp [h0]
    · have ha' : a ∈ l := by
        rcases List.mem_cons.mp ha with h | h
        · exact absurd h.symm hb
        · exact h
      have hf : (b == a) = false := by simpa using hb
      simp [ih hnodup.2 ha', hf]

/-- With distinct `(job, task)` pairs that contain the session's own pair, the
recipients are all configured tasks but one, each other task once, self never. -/
theorem recipients_count (cfg : DistributedContextConfiguration)
    (hnodup : (allTasks cfg).Nodup) (hself : (cfg.job_name, cfg.task_id) ∈ allTasks cfg) :
    (recipients cfg).length + 1 = (allTasks cfg).length ∧
    (∀ t ∈ allTasks cfg, t ≠ (cfg.job_name, cfg.task_id) → (recipients cfg).count t = 1) ∧
    (recipients cfg).count (cfg.job_name, cfg.task_id) = 0 := by
  rw [recipients_eq_filter]
  refine ⟨length_filter_ne _ _ hnodup hself, ?_, ?_⟩
  · intro t ht hne
    rw [List.count_filter (p := fun t => decide (t ≠ (cfg.job_name, cfg.task_id)))
      (decide_eq_true hne)]
    exact count_eq_one_of_nodup hnodup ht
  · rw [List.count_eq_zero]
    simp [List.mem_filter]

theorem callsTo_eq_count (s : Broadcast) (r : List (String × Int)) (t : String × Int)
    (h : s.calls.map (fun c => c.request.target) = r.map some) : s.callsTo t = r.count t := by
  unfold Broadcast.callsTo
  have h1 : (s.calls.filter fun c => decide (c.request.target = some t)).length =
      ((s.calls.map fun c => c.request.target).filter fun o => decide (o = some t)).length := by
    rw [List.filter_map, List.length_map]
    rfl
  rw [h1, h, List.filter_map, List.length_map, List.count, List.countP_eq_length_filter]
  congr 2
  funext x
  simp only [Function.comp, Option.some.injEq]
  by_cases hx : x = t <;> simp [hx]

theorem rpc_step {s s' : Broadcast} {ev : Event} (h : s.step ev = some s') : s'.rpc = s.rpc := by
  cases ev with
  | run =>
    simp only [Broadcast.step] at h
    cases hr : s.returned with
    | true => simp [hr] at h
    | false =>
      simp only [hr, Bool.false_eq_true, if_false] at h
      cases htodo : s.todo with
      | cons t rest =>
        rw [htodo] at h
        cases hrpc : s.rpc <;> simp only [hrpc, Option.some.injEq] at h <;> subst h <;>
          simp [Broadcast.createIteration, Broadcast.closeIteration, hrpc]
      | nil =>
        rw [htodo] at h
        simp only [Option.some.injEq] at h
        subst h
        rfl
  | complete call e =>
    simp only [Broadcast.step] at h
    cases hf : s.pending.find? (fun p => p.call = call) with
    | none => simp [hf] at h
    | some p =>
      simp only [hf, Option.some.injEq] at h
      subst h
      rfl

theorem rpc_exec {s s' : Broadcast} {evs : List Event} (h : s.exec evs = some s') :
    s'.rpc = s.rpc := by
  induction evs generalizing s with
  | nil =>
    simp only [Broadcast.exec, Option.some.injEq] at h
    rw [h]
  | cons ev evs ih =>
    simp only [Broadcast.exec] at h
    cases hstep : s.step ev with
    | none => simp [hstep] at h
    | some s1 =>
      rw [hstep] at h
      rw [ih h, rpc_step hstep]

/-- C2: with distinct `(job, task)` pairs that contain the session's own pair,
once `CreateRemoteContexts` has returned, under every schedule of completions
and outcomes, the calls issued are the `CreateContextAsync` calls to the
configured tasks other than self in loop order: one call for each such task,
none for self, `total - 1` calls in all. -/
theorem CreateRemoteContexts_one_call_per_peer (ctx : DistributedContext)
    (hnodup : (allTasks ctx.dist_config_).Nodup)
    (hself : (ctx.dist_config_.job_name, ctx.dist_config_.task_id) ∈ allTasks ctx.dist_config_)
    (evs : List Event) (s : Broadcast)
    (hrun : ctx.CreateRemoteContexts.exec evs = some s) (hret : s.returned = true) :
    s.calls.map (fun c => c.request.target) = (recipients ctx.dist_config_).map some ∧
    (∀ c ∈ s.calls, c.rpc = Rpc.CreateContextAsync) ∧
    s.calls.length = (allTasks ctx.dist_config_).length - 1 ∧
    (∀ t ∈ allTasks ctx.dist_config_,
      t ≠ (ctx.dist_config_.job_name, ctx.dist_config_.task_id) → s.callsTo t = 1) ∧
    s.callsTo (ctx.dist_config_.job_name, ctx.dist_config_.task_id) = 0 := by
  have hI := Issued_exec (Issued_create ctx) hrun
  have hInv := Inv_exec (Inv_create ctx) hrun
  have hrpc : s.rpc = Rpc.CreateContextAsync := rpc_exec hrun
  have htargets : s.calls.map (fun c => c.request.target) =
      (recipients ctx.dist_config_).map some := by
    have h := hI.targets hrpc
    rw [hInv.ret hret] at h
    simpa using h
  have hcount := recipients_count ctx.dist_config_ hnodup hself
  have hlen : s.calls.length = (recipients ctx.dist_config_).length := by
    have := congrArg List.length htargets
    simpa using this
  refine ⟨htargets, ?_, ?_, ?_, ?_⟩
  · intro c hc
    rw [hI.kind c hc, hrpc]
  · omega
  · intro t ht hne
    rw [callsTo_eq_count s _ t htargets]
    exact hcount.2.1 t ht hne
  · rw [callsTo_eq_count s _ _ htargets]
    exact hcount.2.2

/-- C2, on the example session (tasks 0, 1, 2, opened on task 0): exactly two
calls, to tasks 1 and 2. -/
theorem CreateRemoteContexts_one_call_per_peer_witness :
    (allTasks exampleContext.dist_config_).Nodup ∧
    (exampleContext.dist_config_.job_name, exampleContext.dist_config_.task_id)
      ∈ allTasks exampleContext.dist_config_ ∧
    (exampleContext.CreateRemoteContexts.exec exampleSchedule).map
      (fun s => (s.returned, s.calls.map fun c => c.request.target, s.calls.length))
      = some (true, [some ("worker", 1), some ("worker", 2)], 2) := by
  have hnodup : (allTasks exampleContext.dist_config_).Nodup := by decide
  have hself : (exampleContext.dist_config_.job_name, exampleContext.dist_config_.task_id)
      ∈ allTasks exampleContext.dist_config_ := by decide
  have hsome : (exampleContext.CreateRemoteContexts.exec exampleSchedule).isSome = true := by
    decide
  have hret : (exampleContext.CreateRemoteContexts.exec exampleSchedule).map
      (fun s => s.returned) = some true := by decide
  obtain ⟨s, hrun⟩ := Option.isSome_iff_exists.mp hsome
  rw [hrun] at hret ⊢
  simp only [Option.map_some', Option.some.injEq] at hret ⊢
  have h := CreateRemoteContexts_one_call_per_peer exampleContext hnodup hself
    exampleSchedule s hrun hret
  refine ⟨hnodup, hself, ?_⟩
  rw [hret, h.1, h.2.2.1]
  decide

/-! ## Theorems: regular expressions -/

theorem fullMatch_cons (r : Regex) (c : Char) (s : List Char) :
    r.fullMatch (c :: s) = (r.deriv c).fullMatch s := rfl

theorem fullMatch_empty (s : List Char) : Regex.empty.fullMatch s = false := by
  induction s with
  | nil => rfl
  | cons c s ih => rw [fullMatch_cons]; exact ih

theorem fullMatch_eps (s : List Char) : Regex.eps.fullMatch s = true ↔ s = [] := by
  cases s with
  | nil => simp [Regex.fullMatch, Regex.nullable]
  | cons c s => simp [fullMatch_cons, Regex.deriv, fullMatch_empty]

theorem fullMatch_chr (d : Char) (s : List Char) :
    (Regex.chr d).fullMatch s = true ↔ s = [d] := by
  cases s with
  | nil => simp [Regex.fullMatch, Regex.nullable]
  | cons c s =>
    rw [fullMatch_cons]
    by_cases h : d = c
    · simp [Regex.deriv, h, fullMatch_eps]
    · have h' : ¬ c = d := fun e => h e.symm
      simp [Regex.deriv, h, h', fullMatch_empty]

theorem fullMatch_range (lo hi : Char) (s : List Char) :
    (Regex.range lo hi).fullMatch s = true ↔ ∃ c, s = [c] ∧ lo ≤ c ∧ c ≤ hi := by
  cases s with
  | nil => simp [Regex.fullMatch, Regex.nullable]
  | cons c s =>
    rw [fullMatch_cons]
    by_cases h : lo ≤ c ∧ c ≤ hi
    · simp only [Regex.deriv, h, and_self, if_true, fullMatch_eps]
      constructor
      · intro hs
        exact ⟨c, by rw [hs], h⟩
      · rintro ⟨c', hc', -⟩
        simp only [List.cons.injEq] at hc'
        exact hc'.2
    · simp only [Regex.deriv, h, if_false, fullMatch_empty, Bool.false_eq_true, false_iff]
      rintro ⟨c', hc', hlo⟩
      simp only [List.cons.injEq] at hc'
      exact h (hc'.1 ▸ hlo)

theorem fullMatch_any (s : List Char) : Regex.any.fullMatch s = true ↔ ∃ c, s = [c] := by
  cases s with
  | nil => simp [Regex.fullMatch, Regex.nullable]
  | cons c s => simp [fullMatch_cons, Regex.deriv, fullMatch_eps]

theorem fullMatch_alt (a b : Regex) (s : List Char) :
    (Regex.alt a b).fullMatch s = (a.fullMatch s || b.fullMatch s) := by
  induction s generalizing a b with
  | nil => rfl
  | cons c s ih => simp only [fullMatch_cons, Regex.deriv, ih]

theorem fullMatch_cat (a b : Regex) (s : List Char) :
    (Regex.cat a b).fullMatch s = true ↔
      ∃ t u, s = t ++ u ∧ a.fullMatch t = true ∧ b.fullMatch u = true := by
  induction s generalizing a b with
  | nil =>
    constructor
    · intro h
      refine ⟨[], [], rfl, ?_⟩
      simpa [Regex.fullMatch, Regex.nullable] using h
    · rintro ⟨t, u, htu, ha, hb⟩
      have ht : t = [] := by
        cases t with
        | nil => rfl
        | cons x t => simp at htu
      have hu : u = [] := by
        cases u with
        | nil => rfl
        | cons x u => simp [ht] at htu
      subst ht hu
      simpa [Regex.fullMatch, Regex.nullable] using And.intro ha hb
  | cons c s ih =>
    rw [fullMatch_cons]
    constructor
    · intro h
      by_cases hn : a.nullable = true
      · simp only [Regex.deriv, hn, if_true, fullMatch_alt, Bool.or_eq_true] at h
        rcases h with h | h
        · obtain ⟨t, u, htu, ha, hb⟩ := (ih _ _).mp h
          exact ⟨c :: t, u, by simp [htu], ha, hb⟩
        · exact ⟨[], c :: s, rfl, hn, h⟩
      · simp only [Regex.deriv, hn, if_false, Bool.false_eq_true] at h
        obtain ⟨t, u, htu, ha, hb⟩ := (ih _ _).mp h
        exact ⟨c :: t, u, by simp [htu], ha, hb⟩
    · rintro ⟨t, u, htu, ha, hb⟩
      cases t with
      | nil =>
        have hn : a.nullable = true := ha
        simp only [List.nil_append] at htu
        subst htu
        simp only [Regex.deriv, hn, if_true, fullMatch_alt, Bool.or_eq_true]
        exact Or.inr hb
      | cons x t =>
        simp only [List.cons_append, List.cons.injEq] at htu
        obtain ⟨hx, hs⟩ := htu
        subst hx
        have hcat : (Regex.cat (a.deriv c) b).fullMatch s = true :=
          (ih _ _).mpr ⟨t, u, hs, ha, hb⟩
        by_cases hn : a.nullable = true
        · simp only [Regex.deriv, hn, if_true, fullMatch_alt, Bool.or_eq_true]
          exact Or.inl hcat
        · simpa only [Regex.deriv, hn, if_false, Bool.false_eq_true] using hcat

theorem fullMatch_lit (l s : List Char) : (Regex.lit l).fullMatch s = true ↔ s = l := by
  induction l generalizing s with
  | nil => exact fullMatch_eps s
  | cons c l ih =>
    simp only [Regex.lit, fullMatch_cat, fullMatch_chr, ih]
    constructor
    · rintro ⟨t, u, htu, ht, hu⟩
      simp [htu, ht, hu]
    · intro h
      exact ⟨[c], l, by simp [h], rfl, rfl⟩

/-- A star of an expression that only matches single characters matches the
strings of such characters. -/
theorem fullMatch_star_single (a : Regex) (hsingle : ∀ t, a.fullMatch t = true → t.length = 1)
    (s : List Char) :
    (Regex.star a).fullMatch s = true ↔ ∀ c ∈ s, a.fullMatch [c] = true := by
  induction s with
  | nil => simp [Regex.fullMatch, Regex.nullable]
  | cons c s ih =>
    rw [fullMatch_cons]
    simp only [Regex.deriv, fullMatch_cat, List.mem_cons, forall_eq_or_imp, ← ih]
    constructor
    · rintro ⟨t, u, htu, ha, hu⟩
      have hlen := hsingle (c :: t) ha
      have ht : t = [] := List.length_eq_zero.mp (by simpa using hlen)
      subst ht
      simp only [List.nil_append] at htu
      subst htu
      exact ⟨ha, hu⟩
    · rintro ⟨ha, hu⟩
      exact ⟨[], s, rfl, ha, hu⟩

theorem firstFrom_longest {β : Type} (f : Nat → Option β) (N n0 : Nat) (b : β) (hn0 : n0 ≤ N)
    (hf : f n0 = some b) (hlong : ∀ n, n0 < n → n ≤ N → f n = none) :
    firstFrom f N = some b := by
  induction N with
  | zero =>
    have : n0 = 0 := by omega
    subst this
    simpa [firstFrom] using hf
  | succ N ih =>
    by_cases h : n0 = N + 1
    · subst h
      simp [firstFrom, hf]
    · have hnone : f (N + 1) = none := hlong (N + 1) (by omega) (le_refl _)
      simp only [firstFrom, hnone]
      exact ih (by omega) fun n h1 h2 => hlong n h1 (by omega)

theorem firstFrom_isSome {β : Type} (f : Nat → Option β) (N : Nat) :
    (firstFrom f N).isSome = true ↔ ∃ n, n ≤ N ∧ (f n).isSome = true := by
  induction N with
  | zero =>
    simp only [firstFrom]
    constructor
    · intro h
      exact ⟨0, le_refl _, h⟩
    · rintro ⟨n, hn, h⟩
      have : n = 0 := by omega
      subst this
      exact h
  | succ N ih =>
    simp only [firstFrom]
    cases hf : f (N + 1) with
    | some b =>
      simp only [Option.isSome_some, true_iff]
      exact ⟨N + 1, le_refl _, by simp [hf]⟩
    | none =>
      simp only [ih]
      constructor
      · rintro ⟨n, hn, h⟩
        exact ⟨n, by omega, h⟩
      · rintro ⟨n, hn, h⟩
        by_cases hlast : n = N + 1
        · subst hlast
          simp [hf] at h
        · exact ⟨n, by omega, h⟩

theorem matchItems_cons_isSome (it : Item) (rest : List Item) (s : List Char) :
    (matchItems (it :: rest) s).isSome = true ↔
      ∃ t u, s = t ++ u ∧ it.re.fullMatch t = true ∧ (matchItems rest u).isSome = true := by
  simp only [matchItems, firstFrom_isSome]
  constructor
  · rintro ⟨n, -, h⟩
    by_cases hm : it.re.fullMatch (s.take n) = true
    · simp only [hm, if_true, Option.isSome_map'] at h
      exact ⟨s.take n, s.drop n, (List.take_append_drop n s).symm, hm, h⟩
    · simp [hm] at h
  · rintro ⟨t, u, hs, hm, h⟩
    refine ⟨t.length, by simp [hs], ?_⟩
    subst hs
    simpa [hm] using h

theorem matchItems_cons_longest (it : Item) (rest : List Item) (t u : List Char)
    (caps : List (List Char)) (hm : it.re.fullMatch t = true)
    (hrest : matchItems rest u = some caps)
    (hlong : ∀ n, t.length < n → n ≤ (t ++ u).length →
      it.re.fullMatch ((t ++ u).take n) = false) :
    matchItems (it :: rest) (t ++ u) = some (if it.captured then t :: caps else caps) := by
  simp only [matchItems]
  apply firstFrom_longest _ _ t.length
  · simp
  · simp [hm, hrest]
  · intro n h1 h2
    simp [hlong n h1 h2]

theorem matchItems_lit (l : List Char) (rest : List Item) (u : List Char)
    (caps : List (List Char)) (hrest : matchItems rest u = some caps) :
    matchItems ({ re := Regex.lit l, captured := false } :: rest) (l ++ u) = some caps := by
  have h := matchItems_cons_longest { re := Regex.lit l, captured := false } rest l u caps
    ((fullMatch_lit l l).mpr rfl) hrest (by
      intro n h1 h2
      cases hf : (Regex.lit l).fullMatch ((l ++ u).take n) with
      | false => rfl
      | true =>
        have := congrArg List.length ((fullMatch_lit l _).mp hf)
        rw [List.length_take] at this
        omega)
  simpa using h

theorem reAlpha_single (t : List Char) (h : reAlpha.fullMatch t = true) : t.length = 1 := by
  simp only [reAlpha, fullMatch_alt, Bool.or_eq_true, fullMatch_range] at h
  rcases h with ⟨c, hc, -⟩ | ⟨c, hc, -⟩ <;> simp [hc]

theorem reWord_single (t : List Char) (h : reWord.fullMatch t = true) : t.length = 1 := by
  simp only [reWord, fullMatch_alt, Bool.or_eq_true, fullMatch_range, fullMatch_chr] at h
  rcases h with hc | ⟨c, hc, -⟩ | ⟨c, hc, -⟩ | ⟨c, hc, -⟩ <;> simp [hc]

theorem range_single (lo hi : Char) (t : List Char)
    (h : (Regex.range lo hi).fullMatch t = true) : t.length = 1 := by
  obtain ⟨c, hc, -⟩ := (fullMatch_range lo hi t).mp h
  simp [hc]

theorem any_single (t : List Char) (h : Regex.any.fullMatch t = true) : t.length = 1 := by
  obtain ⟨c, hc⟩ := (fullMatch_any t).mp h
  simp [hc]

theorem fullMatch_star_any (s : List Char) : (Regex.star Regex.any).fullMatch s = true := by
  rw [fullMatch_star_single _ any_single]
  intro c _
  exact (fullMatch_any [c]).mpr ⟨c, rfl⟩

theorem reAlpha_word (c : Char) (h : reAlpha.fullMatch [c] = true) :
    reWord.fullMatch [c] = true := by
  simp only [reAlpha, reWord, fullMatch_alt, Bool.or_eq_true] at h ⊢
  rcases h with h | h
  · exact Or.inr (Or.inl h)
  · exact Or.inr (Or.inr (Or.inl h))

theorem length_one {t : List Char} (h : t.length = 1) : ∃ c, t = [c] := by
  match t, h with
  | [c], _ => exact ⟨c, rfl⟩

/-- The strings matching `[a-zA-Z][_a-zA-Z0-9]*`. -/
theorem fullMatch_reJobName (s : List Char) :
    reJobName.fullMatch s = true ↔
      ∃ c t, s = c :: t ∧ reAlpha.fullMatch [c] = true ∧ ∀ x ∈ t, reWord.fullMatch [x] = true := by
  simp only [reJobName, fullMatch_cat, fullMatch_star_single _ reWord_single]
  constructor
  · rintro ⟨t, u, hs, ht, hu⟩
    obtain ⟨c, hc⟩ := length_one (reAlpha_single t ht)
    subst hc
    exact ⟨c, u, by simpa using hs, ht, hu⟩
  · rintro ⟨c, t, hs, hc, ht⟩
    exact ⟨[c], t, by simpa using hs, hc, ht⟩

theorem reJobName_word (s : List Char) (h : reJobName.fullMatch s = true) :
    ∀ x ∈ s, reWord.fullMatch [x] = true := by
  obtain ⟨c, t, hs, hc, ht⟩ := (fullMatch_reJobName s).mp h
  subst hs
  intro x hx
  rcases List.mem_cons.mp hx with h | h
  · exact h ▸ reAlpha_word c hc
  · exact ht x h

theorem reWord_slash : reWord.fullMatch ['/'] = false := by decide

/-- A job name followed by a slash: no longer prefix is a job name. -/
theorem reJobName_longest (job rest : List Char) (n : Nat) (hn : job.length < n) :
    reJobName.fullMatch ((job ++ '/' :: rest).take n) = false := by
  cases hf : reJobName.fullMatch ((job ++ '/' :: rest).take n) with
  | false => rfl
  | true =>
    have hword := reJobName_word _ hf '/' (by
      rw [List.take_append_eq_append_take]
      apply List.mem_append_right
      obtain ⟨k, hk⟩ : ∃ k, n - job.length = k + 1 := ⟨n - job.length - 1, by omega⟩
      rw [hk, List.take_succ_cons]
      exact List.mem_cons_self _ _)
    rw [reWord_slash] at hword
    exact absurd hword (by simp)

/-- The strings matching `[0-9]|[1-9][0-9]+`. -/
theorem fullMatch_reTaskId (s : List Char) :
    reTaskId.fullMatch s = true ↔
      (∃ c, s = [c] ∧ '0' ≤ c ∧ c ≤ '9') ∨
      (∃ c t, s = c :: t ∧ ('1' ≤ c ∧ c ≤ '9') ∧ t ≠ [] ∧ ∀ x ∈ t, '0' ≤ x ∧ x ≤ '9') := by
  have hdigit : ∀ x : Char, (Regex.range '0' '9').fullMatch [x] = true ↔ '0' ≤ x ∧ x ≤ '9' := by
    intro x
    rw [fullMatch_range]
    constructor
    · rintro ⟨c, hc, h⟩
      simp only [List.cons.injEq, and_true] at hc
      exact hc ▸ h
    · intro h
      exact ⟨x, rfl, h⟩
  simp only [reTaskId, Regex.plus, fullMatch_alt, Bool.or_eq_true, fullMatch_cat,
    fullMatch_star_single _ (range_single '0' '9'), fullMatch_range, hdigit]
  constructor
  · rintro (h | ⟨t, u, hs, ⟨c, hc, hc1⟩, v, w, hu, ⟨d, hd, hd1⟩, hw⟩)
    · exact Or.inl h
    · refine Or.inr ⟨c, u, by simp [hs, hc], hc1, by simp [hu, hd], ?_⟩
      intro x hx
      rw [hu, hd] at hx
      rcases List.mem_cons.mp hx with h | h
      · exact h ▸ hd1
      · exact hw x h
  · rintro (h | ⟨c, t, hs, hc, hne, ht⟩)
    · exact Or.inl h
    · cases t with
      | nil => exact absurd rfl hne
      | cons d w =>
        refine Or.inr ⟨[c], d :: w, by simp [hs], ⟨c, rfl, hc⟩, [d], w, rfl, ⟨d, rfl, ?_⟩, ?_⟩
        · exact ht d (List.mem_cons_self _ _)
        · intro x hx
          exact ht x (List.mem_cons_of_mem _ hx)

/-! ## Theorems: decimal digits and `to_integer` -/

/-- Decimal value of a list of digits, most significant first. -/
theorem foldl_digits_snoc (ds : List Nat) (d : Nat) :
    (ds ++ [d]).foldl (fun a x => a * 10 + x) 0 = ds.foldl (fun a x => a * 10 + x) 0 * 10 + d := by
  simp [List.foldl_append]

theorem toDigitsCore_digits (fuel n : Nat) (acc : List Char) (hfuel : n < fuel) :
    ∃ ds : List Nat, Nat.toDigitsCore 10 fuel n acc = ds.map Nat.digitChar ++ acc ∧
      (∀ d ∈ ds, d < 10) ∧
      (∃ d0 rest, ds = d0 :: rest ∧ (d0 = 0 → rest = [])) ∧
      ds.foldl (fun a x => a * 10 + x) 0 = n := by
  induction fuel generalizing n acc with
  | zero => omega
  | succ fuel ih =>
    simp only [Nat.toDigitsCore]
    by_cases h0 : n / 10 = 0
    · have hlt : n < 10 := by omega
      refine ⟨[n], by simp [h0, Nat.mod_eq_of_lt hlt], by simpa using hlt, ⟨n, [], rfl, fun _ => rfl⟩,
        by simp⟩
    · obtain ⟨ds, hds, hlt, ⟨d0, rest, hcons, hd0⟩, hval⟩ :=
        ih (n / 10) (Nat.digitChar (n % 10) :: acc) (by omega)
      refine ⟨ds ++ [n % 10], by simp [h0, hds], ?_, ⟨d0, rest ++ [n % 10], by simp [hcons], ?_⟩, ?_⟩
      · intro d hd
        rcases List.mem_append.mp hd with h | h
        · exact hlt d h
        · simp only [List.mem_singleton] at h
          omega
      · intro hz
        have hrest := hd0 hz
        rw [hcons, hz, hrest] at hval
        simp at hval
        omega
      · rw [foldl_digits_snoc, hval]
        omega

/-- The decimal rendering of a natural number: digits below ten, no leading
zero except for zero itself, and the number as value. -/
theorem toDigits_digits (n : Nat) :
    ∃ ds : List Nat, Nat.toDigits 10 n = ds.map Nat.digitChar ∧
      (∀ d ∈ ds, d < 10) ∧
      (∃ d0 rest, ds = d0 :: rest ∧ (d0 = 0 → rest = [])) ∧
      ds.foldl (fun a x => a * 10 + x) 0 = n := by
  obtain ⟨ds, h, rest⟩ := toDigitsCore_digits (n + 1) n [] (by omega)
  exact ⟨ds, by simpa [Nat.toDigits] using h, rest⟩

theorem digitChar_facts : ∀ d, d < 10 →
    digitValue (Nat.digitChar d) = some d ∧
    ('0' ≤ Nat.digitChar d ∧ Nat.digitChar d ≤ '9') ∧
    (d ≠ 0 → '1' ≤ Nat.digitChar d) ∧
    (d ≠ 0 → Nat.digitChar d ≠ '0') ∧
    Nat.digitChar d ≠ '-' ∧
    Nat.digitChar d ≠ 'x' ∧ Nat.digitChar d ≠ 'X' ∧ Nat.digitChar d ≠ 'b' ∧
    Nat.digitChar d ≠ 'B' ∧ Nat.digitChar d ≠ 'o' := by
  decide

theorem foldl_digits_le (ds : List Nat) (acc : Nat) :
    acc ≤ ds.foldl (fun a x => a * 10 + x) acc := by
  induction ds generalizing acc with
  | nil => exact le_refl _
  | cons d ds ih =>
    simp only [List.foldl_cons]
    exact le_trans (by omega) (ih (acc * 10 + d))

theorem consumeLoop_digits (ds : List Nat) (acc : Nat) (hlt : ∀ d ∈ ds, d < 10)
    (hbound : ds.foldl (fun a x => a * 10 + x) acc < 2 ^ 64) :
    consumeLoop 10 (ds.map Nat.digitChar) acc =
      some (ds.foldl (fun a x => a * 10 + x) acc, []) := by
  induction ds generalizing acc with
  | nil => rfl
  | cons d ds ih =>
    have hd : d < 10 := hlt d (List.mem_cons_self _ _)
    have hstep : acc * 10 + d < 2 ^ 64 :=
      lt_of_le_of_lt (foldl_digits_le ds (acc * 10 + d)) hbound
    simp only [List.map_cons, consumeLoop, (digitChar_facts d hd).1, List.foldl_cons]
    rw [if_neg (by omega), Nat.mod_eq_of_lt hstep, if_neg (by omega)]
    exact ih (acc * 10 + d) (fun x hx => hlt x (List.mem_cons_of_mem _ hx)) hbound

theorem GetAutoSenseRadix_digits (ds : List Nat) (hlt : ∀ d ∈ ds, d < 10)
    (hhead : ∃ d0 rest, ds = d0 :: rest ∧ (d0 = 0 → rest = [])) :
    GetAutoSenseRadix (ds.map Nat.digitChar) = (10, ds.map Nat.digitChar) := by
  obtain ⟨d0, rest, hds, hzero⟩ := hhead
  subst hds
  cases rest with
  | nil => simp [GetAutoSenseRadix]
  | cons d1 rest =>
    have h0 := digitChar_facts d0 (hlt d0 (by simp))
    have h1 := digitChar_facts d1 (hlt d1 (by simp))
    have hne : d0 ≠ 0 := fun h => by simpa using hzero h
    have hc0 : Nat.digitChar d0 ≠ '0' := h0.2.2.2.1 hne
    simp [GetAutoSenseRadix, h1.2.2.2.2.2.1, h1.2.2.2.2.2.2.1, h1.2.2.2.2.2.2.2.1,
      h1.2.2.2.2.2.2.2.2.1, h1.2.2.2.2.2.2.2.2.2, hc0]

theorem to_integer_digits (ds : List Nat) (n : Nat) (hlt : ∀ d ∈ ds, d < 10)
    (hhead : ∃ d0 rest, ds = d0 :: rest ∧ (d0 = 0 → rest = []))
    (hval : ds.foldl (fun a x => a * 10 + x) 0 = n) (hn : n < 2 ^ 31) :
    to_integer (ds.map Nat.digitChar) = some (n : Int) := by
  have hsense := GetAutoSenseRadix_digits ds hlt hhead
  have hloop := consumeLoop_digits ds 0 hlt (by rw [hval]; omega)
  rw [hval] at hloop
  obtain ⟨d0, rest, hds, -⟩ := hhead
  have hminus : (ds.map Nat.digitChar).head? ≠ some '-' := by
    rw [hds]
    simpa using (digitChar_facts d0 (hlt d0 (by simp [hds]))).2.2.2.2.1
  have hne : ds.map Nat.digitChar ≠ [] := by simp [hds]
  have hlen : ¬ (0 = (ds.map Nat.digitChar).length) := by simp [hds]
  have hu : consumeUnsignedInteger (ds.map Nat.digitChar) 0 = some (n, []) := by
    simp only [consumeUnsignedInteger, if_true, hsense, hne, if_false, hloop, List.length_nil, hlen]
  have hs : consumeSignedInteger (ds.map Nat.digitChar) 0 = some ((n : Int), []) := by
    simp only [consumeSignedInteger, hminus, ne_eq, not_false_eq_true, if_true, hu]
    rw [if_neg (by omega)]
  have hrange : -(2 : Int) ^ 31 ≤ (n : Int) ∧ (n : Int) < (2 : Int) ^ 31 := by
    constructor <;> omega
  simp only [to_integer, getAsSignedInteger, hs, if_true, hrange, and_self]

/-- Parsing the decimal rendering of an `int` in `[0, 2^31 - 1]` gives it back. -/
theorem to_integer_renderInt (task_id : Int) (h0 : 0 ≤ task_id) (h1 : task_id ≤ 2 ^ 31 - 1) :
    to_integer (renderInt task_id) = some task_id := by
  obtain ⟨ds, hds, hlt, hhead, hval⟩ := toDigits_digits task_id.toNat
  have h := to_integer_digits ds task_id.toNat hlt hhead hval (by omega)
  rw [renderInt, if_neg (by omega), hds, h]
  congr 1
  omega

theorem reTaskId_renderInt (task_id : Int) (h0 : 0 ≤ task_id) :
    reTaskId.fullMatch (renderInt task_id) = true := by
  obtain ⟨ds, hds, hlt, ⟨d0, rest, hcons, hzero⟩, -⟩ := toDigits_digits task_id.toNat
  rw [renderInt, if_neg (by omega), hds, fullMatch_reTaskId]
  subst hcons
  have h0' := digitChar_facts d0 (hlt d0 (by simp))
  cases rest with
  | nil => exact Or.inl ⟨Nat.digitChar d0, rfl, h0'.2.1⟩
  | cons d1 rest =>
    have hne : d0 ≠ 0 := fun h => by simpa using hzero h
    refine Or.inr ⟨Nat.digitChar d0, (d1 :: rest).map Nat.digitChar, rfl,
      ⟨h0'.2.2.1 hne, h0'.2.1.2⟩, by simp, ?_⟩
    intro x hx
    obtain ⟨d, hd, rfl⟩ := List.mem_map.mp hx
    exact (digitChar_facts d (hlt d (List.mem_cons_of_mem _ hd))).2.1

/-- The match of the task-name pattern on a formatted task name: the groups
are the job name and the digits. -/
theorem matchItems_canonical (job digits : List Char) (hjob : reJobName.fullMatch job = true)
    (hdigits : reTaskId.fullMatch digits = true) :
    matchItems kTaskNameRegex
      (['/', 'j', 'o', 'b', ':'] ++ (job ++ (['/', 't', 'a', 's', 'k', ':'] ++ (digits ++ []))))
      = some [job, digits] := by
  have h5 : matchItems [{ re := Regex.star Regex.any, captured := false }] [] = some [] := by
    decide
  have h4 := matchItems_cons_longest { re := reTaskId, captured := true } _ digits [] []
    hdigits h5 (by
      intro n hn1 hn2
      simp only [List.append_nil] at hn2
      omega)
  have h3 := matchItems_lit ['/', 't', 'a', 's', 'k', ':'] _ _ _ h4
  have h2 := matchItems_cons_longest { re := reJobName, captured := true } _ job _ _ hjob h3
    (fun n hn _ => reJobName_longest job _ n hn)
  exact matchItems_lit ['/', 'j', 'o', 'b', ':'] _ _ _ h2

/-- C3: for every job name matching `[a-zA-Z][_a-zA-Z0-9]*` and every task id
in `[0, 2^31 - 1]`, `ParseTaskName (ConcatTaskName job id)` returns success
with the job name and the id it was given, whatever the output parameters held
before. -/
theorem ParseTaskName_ConcatTaskName (job_name : String) (task_id : Int)
    (hjob : reJobName.fullMatch job_name.data = true)
    (h0 : 0 ≤ task_id) (h1 : task_id ≤ 2 ^ 31 - 1)
    (out_job_name : String) (out_task_id : Int) :
    ParseTaskName (ConcatTaskName job_name task_id) out_job_name out_task_id =
      { error := none, out_job_name := job_name, out_task_id := task_id } := by
  have hm := matchItems_canonical job_name.data (renderInt task_id) hjob
    (reTaskId_renderInt task_id h0)
  simp only [List.append_nil] at hm
  have hdata : (ConcatTaskName job_name task_id).data =
      ['/', 'j', 'o', 'b', ':'] ++ (job_name.data ++ (['/', 't', 'a', 's', 'k', ':'] ++
        renderInt task_id)) := by
    simp [ConcatTaskName]
  simp only [ParseTaskName, regexMatch, hdata, hm, Option.map_some', List.getD_cons_succ,
    List.getD_cons_zero, to_integer_renderInt task_id h0 h1, Option.getD_some]

/-- C3, on a two-digit id: `/job:worker/task:12` parses back to `("worker", 12)`. -/
theorem ParseTaskName_ConcatTaskName_witness :
    reJobName.fullMatch "worker".data = true ∧ (0 : Int) ≤ 12 ∧ (12 : Int) ≤ 2 ^ 31 - 1 ∧
    ConcatTaskName "worker" 12 = "/job:worker/task:12" ∧
    ParseTaskName "/job:worker/task:12" "" (-1) =
      { error := none, out_job_name := "worker", out_task_id := 12 } := by
  have hjob : reJobName.fullMatch "worker".data = true := by decide
  have hc : ConcatTaskName "worker" 12 = "/job:worker/task:12" := by decide
  refine ⟨hjob, by decide, by decide, hc, ?_⟩
  rw [← hc]
  exact ParseTaskName_ConcatTaskName "worker" 12 hjob (by decide) (by decide) "" (-1)

theorem matchItems_nil_isSome (s : List Char) : (matchItems [] s).isSome = true ↔ s = [] := by
  by_cases h : s = [] <;> simp [matchItems, h]

/-- The strings the task-name pattern matches: `/job:`, a job name, `/task:`,
one digit, then anything. -/
theorem matchItems_kTaskNameRegex_isSome (s : List Char) :
    (matchItems kTaskNameRegex s).isSome = true ↔
      ∃ job d rest, s = ['/', 'j', 'o', 'b', ':'] ++ job ++ ['/', 't', 'a', 's', 'k', ':'] ++
          d :: rest ∧
        reJobName.fullMatch job = true ∧ '0' ≤ d ∧ d ≤ '9' := by
  simp only [kTaskNameRegex, matchItems_cons_isSome, matchItems_nil_isSome, fullMatch_lit,
    fullMatch_star_any]
  constructor
  · rintro ⟨t1, u1, hs, ht1, t2, u2, hu1, ht2, t3, u3, hu2, ht3, t4, u4, hu3, ht4, t5, u5, hu4,
      -, hu5⟩
    subst hs hu1 hu2 hu3 hu4 hu5 ht1 ht3
    rcases (fullMatch_reTaskId t4).mp ht4 with ⟨d, hd, hd1⟩ | ⟨d, t, hd, hd1, -, -⟩
    · exact ⟨t2, d, t5, by simp [hd], ht2, hd1⟩
    · refine ⟨t2, d, t ++ t5, by simp [hd], ht2, ?_, hd1.2⟩
      exact le_trans (by decide) hd1.1
  · rintro ⟨job, d, rest, hs, hjob, hd⟩
    refine ⟨_, job ++ (['/', 't', 'a', 's', 'k', ':'] ++ d :: rest), by simp [hs], rfl, job, _, rfl,
      hjob, _, d :: rest, rfl, rfl, [d], rest, rfl, ?_, rest, [], by simp, trivial, rfl⟩
    exact (fullMatch_reTaskId [d]).mpr (Or.inl ⟨d, rfl, hd⟩)

/-- C4, as the code has it: `ParseTaskName` returns success exactly for the
strings that start with `/job:<job_name>/task:<digit>`, whatever follows the
digit; for every other string it returns an InvalidArgument error whose
message is built around the string, and leaves the output parameters alone. -/
theorem ParseTaskName_success_iff (task_name out_job_name : String) (out_task_id : Int) :
    ((ParseTaskName task_name out_job_name out_task_id).error = none ↔
      ∃ job d rest, task_name.data =
          ['/', 'j', 'o', 'b', ':'] ++ job ++ ['/', 't', 'a', 's', 'k', ':'] ++ d :: rest ∧
        reJobName.fullMatch job = true ∧ '0' ≤ d ∧ d ≤ '9') ∧
    ((ParseTaskName task_name out_job_name out_task_id).error ≠ none →
      ParseTaskName task_name out_job_name out_task_id =
        { error := some { code := ErrorCode.InvalidArgument,
                          message := "Error parsing task name \"" ++ task_name ++ "\": " ++ "" },
          out_job_name := out_job_name, out_task_id := out_task_id }) := by
  rw [← matchItems_kTaskNameRegex_isSome]
  unfold ParseTaskName regexMatch
  cases matchItems kTaskNameRegex task_name.data <;> simp

/-- C4 fails as stated: `/job:worker/task:1/device:cpu` is not of the form
`/job:<job_name>/task:<task_id>` (it does not end in a digit), and
`ParseTaskName` returns success on it, with job `worker` and id 1. -/
theorem ParseTaskName_accepts_trailing_text :
    ParseTaskName "/job:worker/task:1/device:cpu" "" (-1) =
      { error := none, out_job_name := "worker", out_task_id := 1 } ∧
    ¬ ∃ job digits : List Char,
      "/job:worker/task:1/device:cpu".data =
          ['/', 'j', 'o', 'b', ':'] ++ job ++ ['/', 't', 'a', 's', 'k', ':'] ++ digits ∧
        reJobName.fullMatch job = true ∧ digits ≠ [] ∧ ∀ c ∈ digits, '0' ≤ c ∧ c ≤ '9' := by
  refine ⟨by decide, ?_⟩
  rintro ⟨job, digits, hs, -, hne, hdigits⟩
  have hlast := congrArg List.getLast? hs
  rw [List.getLast?_append_of_ne_nil _ hne] at hlast
  have hmem : 'u' ∈ digits := by
    apply List.mem_of_getLast?_eq_some
    rw [← hlast]
    rfl
  exact absurd (hdigits 'u' hmem).2 (by decide)

/-! ## Theorems: a session without remote peers -/

theorem recipients_nil (cfg : DistributedContextConfiguration)
    (hsolo : ∀ t ∈ allTasks cfg, t = (cfg.job_name, cfg.task_id)) : recipients cfg = [] := by
  rw [recipients_eq_filter, List.filter_eq_nil_iff]
  intro t ht
  simp [hsolo t ht]

/-- Every state of a broadcast over no recipient: no call, and the done
callback has fired once with success exactly when the function has returned. -/
theorem Inv_zero {s : Broadcast} (hs : s.Inv 0) :
    s.calls = [] ∧ s.pending = [] ∧
    s.done_calls = if s.returned then [none] else [] := by
  obtain ⟨hrefs, hfired, herr, hcount, htotal, hret⟩ := hs
  have hcalls : s.calls = [] := List.length_eq_zero.mp (by omega)
  have hpending : s.pending = [] := List.length_eq_zero.mp (by omega)
  have hreported : s.reported = [] := List.length_eq_zero.mp (by omega)
  refine ⟨hcalls, hpending, ?_⟩
  rw [hfired, herr, hreported, hrefs, hpending]
  cases s.returned <;> simp [firstError]

/-- C5: in a session whose cluster configuration has no task other than
self, `CreateRemoteContexts` and `CloseRemoteContexts` each run to their return
in one step without any outbound call, and in every state of every schedule of
either no call has been issued and the done callback has fired exactly once,
with success, from the return on (and not before). -/
theorem broadcast_without_peers (ctx : DistributedContext)
    (hsolo : ∀ t ∈ allTasks ctx.dist_config_,
      t = (ctx.dist_config_.job_name, ctx.dist_config_.task_id)) :
    (∃ s, ctx.CreateRemoteContexts.exec [Event.run] = some s ∧ s.returned = true ∧
      s.calls = [] ∧ s.pending = [] ∧ s.done_calls = [none]) ∧
    (∃ s, ctx.CloseRemoteContexts.exec [Event.run] = some s ∧ s.returned = true ∧
      s.calls = [] ∧ s.pending = [] ∧ s.done_calls = [none]) ∧
    (∀ evs s, ctx.CreateRemoteContexts.exec evs = some s →
      s.calls = [] ∧ s.pending = [] ∧ s.done_calls = if s.returned then [none] else []) ∧
    (∀ evs s, ctx.CloseRemoteContexts.exec evs = some s →
      s.calls = [] ∧ s.pending = [] ∧ s.done_calls = if s.returned then [none] else []) := by
  have hnil := recipients_nil ctx.dist_config_ hsolo
  have hcreate := Inv_create ctx
  have hclose := Inv_close ctx
  rw [hnil] at hcreate hclose
  simp only [List.length_nil] at hcreate hclose
  have hall1 : ∀ evs s, ctx.CreateRemoteContexts.exec evs = some s →
      s.calls = [] ∧ s.pending = [] ∧ s.done_calls = if s.returned then [none] else [] :=
    fun evs s h => Inv_zero (Inv_exec hcreate h)
  have hall2 : ∀ evs s, ctx.CloseRemoteContexts.exec evs = some s →
      s.calls = [] ∧ s.pending = [] ∧ s.done_calls = if s.returned then [none] else [] :=
    fun evs s h => Inv_zero (Inv_exec hclose h)
  refine ⟨?_, ?_, hall1, hall2⟩
  · obtain ⟨s, hstep, hr, -⟩ := step_run_return (s := ctx.CreateRemoteContexts) rfl hnil
    have hexec : ctx.CreateRemoteContexts.exec [Event.run] = some s := by
      simp [Broadcast.exec, hstep]
    have h := hall1 _ s hexec
    rw [hr] at h
    exact ⟨s, hexec, hr, h.1, h.2.1, by simpa using h.2.2⟩
  · obtain ⟨s, hstep, hr, -⟩ := step_run_return (s := ctx.CloseRemoteContexts) rfl hnil
    have hexec : ctx.CloseRemoteContexts.exec [Event.run] = some s := by
      simp [Broadcast.exec, hstep]
    have h := hall2 _ s hexec
    rw [hr] at h
    exact ⟨s, hexec, hr, h.1, h.2.1, by simpa using h.2.2⟩

/-- C5, on a one-task cluster: both broadcasts issue no call and fire the done
callback once, with success. -/
theorem broadcast_without_peers_witness :
    (∀ t ∈ allTasks soloContext.dist_config_,
      t = (soloContext.dist_config_.job_name, soloContext.dist_config_.task_id)) ∧
    (soloContext.CreateRemoteContexts.exec [Event.run]).map
      (fun s => (s.calls, s.done_calls)) = some ([], [none]) ∧
    (soloContext.CloseRemoteContexts.exec [Event.run]).map
      (fun s => (s.calls, s.done_calls)) = some ([], [none]) := by
  have hsolo : ∀ t ∈ allTasks soloContext.dist_config_,
      t = (soloContext.dist_config_.job_name, soloContext.dist_config_.task_id) := by decide
  obtain ⟨⟨s1, h1, -, hc1, -, hd1⟩, ⟨s2, h2, -, hc2, -, hd2⟩, -⟩ :=
    broadcast_without_peers soloContext hsolo
  refine ⟨hsolo, ?_, ?_⟩
  · rw [h1, Option.map_some', hc1, hd1]
  · rw [h2, Option.map_some', hc2, hd2]

/-! ## Theorems: maps -/

theorem find_append {κ ν : Type} [DecidableEq κ] (m : List (κ × ν)) (k' : κ) (v' : ν) (k : κ) :
    Map.find (m ++ [(k', v')]) k =
      (Map.find m k).orElse fun _ => if k' = k then some v' else none := by
  induction m with
  | nil => simp [Map.find]
  | cons e m ih =>
    obtain ⟨a, b⟩ := e
    by_cases h : a = k
    · simp [Map.find, h]
    · simp [Map.find, h, ih]

/-- An insertion never removes or replaces an entry. -/
theorem find_try_emplace_of_some {κ ν : Type} [DecidableEq κ] (m : List (κ × ν)) (k' k : κ)
    (v' v : ν) (h : Map.find m k = some v) : Map.find (Map.try_emplace m k' v').1 k = some v := by
  unfold Map.try_emplace
  cases hk : Map.find m k' with
  | some w => exact h
  | none => simp [find_append, h]

theorem find_try_emplace_ne {κ ν : Type} [DecidableEq κ] (m : List (κ × ν)) (k' k : κ)
    (v' : ν) (h : k' ≠ k) : Map.find (Map.try_emplace m k' v').1 k = Map.find m k := by
  unfold Map.try_emplace
  cases hk : Map.find m k' with
  | some w => rfl
  | none =>
    simp only [find_append, h, if_false]
    cases Map.find m k <;> rfl

theorem find_try_emplace_self {κ ν : Type} [DecidableEq κ] (m : List (κ × ν)) (k : κ) (v : ν)
    (h : Map.find m k = none) : Map.find (Map.try_emplace m k v).1 k = some v := by
  unfold Map.try_emplace
  simp [h, find_append]

/-! ## Theorems: the collective-group registry -/

theorem resolveMembers_value (ci : ClusterInfo) (ms : List String) (hs acc : List TaskHandle)
    (h : ms.map ci.GetTaskHandle = hs.map Result.value) :
    resolveMembers ci ms acc = Result.value (acc ++ hs) := by
  induction ms generalizing hs acc with
  | nil =>
    cases hs with
    | nil => simp [resolveMembers]
    | cons t hs => simp at h
  | cons m ms ih =>
    cases hs with
    | nil => simp at h
    | cons t hs =>
      simp only [List.map_cons, List.cons.injEq] at h
      simp only [resolveMembers, h.1, Result.get, Result.andThen]
      rw [ih hs (acc ++ [t]) h.2]
      simp

theorem resolvable_handles (ci : ClusterInfo) (ms : List String)
    (h : ∀ m ∈ ms, ∃ t, ci.GetTaskHandle m = Result.value t) :
    ∃ hs : List TaskHandle, ms.map ci.GetTaskHandle = hs.map Result.value := by
  induction ms with
  | nil => exact ⟨[], rfl⟩
  | cons m ms ih =>
    obtain ⟨t, ht⟩ := h m (List.mem_cons_self _ _)
    obtain ⟨hs, hhs⟩ := ih fun x hx => h x (List.mem_cons_of_mem _ hx)
    exact ⟨t :: hs, by simp [ht, hhs]⟩

/-- An unresolvable member stops `resolveMembers` on an assertion. -/
theorem resolveMembers_unresolvable (ci : ClusterInfo) (ms : List String) (acc : List TaskHandle)
    (h : ∃ m ∈ ms, ∀ t, ci.GetTaskHandle m ≠ Result.value t) :
    ∃ msg, resolveMembers ci ms acc = Result.assertFailed msg := by
  induction ms generalizing acc with
  | nil => simp at h
  | cons m ms ih =>
    simp only [resolveMembers]
    cases hm : ci.GetTaskHandle m with
    | value t =>
      simp only [Result.get, Result.andThen]
      apply ih
      obtain ⟨x, hx, hbad⟩ := h
      rcases List.mem_cons.mp hx with hx | hx
      · exact absurd (hx ▸ hm) (hbad t)
      · exact ⟨x, hx, hbad⟩
    | error e => exact ⟨_, rfl⟩
    | assertFailed msg => exact ⟨_, rfl⟩

theorem resolveMembers_not_error (ci : ClusterInfo) (ms : List String) (acc : List TaskHandle)
    (e : ErrorInfo) : resolveMembers ci ms acc ≠ Result.error e := by
  induction ms generalizing acc with
  | nil => simp [resolveMembers]
  | cons m ms ih =>
    simp only [resolveMembers]
    cases ci.GetTaskHandle m with
    | value t => exact ih _
    | error e' => simp [Result.get, Result.andThen]
    | assertFailed msg => simp [Result.get, Result.andThen]

/-- A group with an unresolvable member stops the outer loop on an assertion. -/
theorem initializeGroupsLoop_unresolvable (ci : ClusterInfo) (groups : List CollectiveGroupProto)
    (acc : List (String × CollectiveGroup))
    (h : ∃ g ∈ groups, ∃ m ∈ g.members, ∀ t, ci.GetTaskHandle m ≠ Result.value t) :
    ∃ msg, initializeGroupsLoop ci groups acc = Result.assertFailed msg := by
  induction groups generalizing acc with
  | nil => simp at h
  | cons g groups ih =>
    simp only [initializeGroupsLoop]
    cases hr : resolveMembers ci g.members [] with
    | value members =>
      simp only [Result.andThen]
      apply ih
      obtain ⟨x, hx, hbad⟩ := h
      rcases List.mem_cons.mp hx with hx | hx
      · subst hx
        obtain ⟨msg, hmsg⟩ := resolveMembers_unresolvable ci x.members [] hbad
        rw [hmsg] at hr
        cases hr
      · exact ⟨x, hx, hbad⟩
    | error e => exact absurd hr (resolveMembers_not_error ci _ _ e)
    | assertFailed msg => exact ⟨_, rfl⟩

/-- C6, as the code has it: when some collective group declares a member that
`ClusterInfo` cannot resolve, `InitializeCollectiveGroups` hands back neither
a group map nor an error: the failed lookup trips the assertion of
`Expected::get`, and the construction of the `DistributedContext` stops on
that assertion, not on an error returned to the caller. -/
theorem InitializeCollectiveGroups_unresolvable (context_id : Nat)
    (communicator : FabricCommunicator) (GetTaskHandle : String → Int → TaskHandle)
    (ci : ClusterInfo) (cfg : DistributedContextConfiguration)
    (h : ∃ g ∈ cfg.collective_groups, ∃ m ∈ g.members, ∀ t, ci.GetTaskHandle m ≠ Result.value t) :
    ∃ msg, InitializeCollectiveGroups ci cfg = Result.assertFailed msg ∧
      DistributedContext.construct context_id communicator GetTaskHandle ci cfg =
        Result.assertFailed msg := by
  obtain ⟨msg, hmsg⟩ := initializeGroupsLoop_unresolvable ci cfg.collective_groups [] h
  refine ⟨msg, hmsg, ?_⟩
  simp only [DistributedContext.construct, InitializeCollectiveGroups, hmsg, Result.andThen]

theorem strayMember_unresolvable :
    ∃ g ∈ strayMemberConfig.collective_groups, ∃ m ∈ g.members,
      ∀ t, exampleClusterInfo.GetTaskHandle m ≠ Result.value t :=
  ⟨_, List.mem_cons_self _ _, "/job:worker/task:9", by decide, fun t => by
    simp [exampleClusterInfo, Map.find]⟩

/-- C6, on a group with the stray member `/job:worker/task:9`: the
initialisation yields an assertion failure. -/
theorem InitializeCollectiveGroups_unresolvable_witness :
    (∃ g ∈ strayMemberConfig.collective_groups, ∃ m ∈ g.members,
      ∀ t, exampleClusterInfo.GetTaskHandle m ≠ Result.value t) ∧
    ∃ msg, InitializeCollectiveGroups exampleClusterInfo strayMemberConfig =
        Result.assertFailed msg ∧
      DistributedContext.construct 7 { created := [] } (fun _ task => task.toNat)
        exampleClusterInfo strayMemberConfig = Result.assertFailed msg :=
  ⟨strayMember_unresolvable,
    InitializeCollectiveGroups_unresolvable 7 { created := [] } (fun _ task => task.toNat)
      exampleClusterInfo strayMemberConfig strayMember_unresolvable⟩

/-- C6 fails as stated: with the stray member `/job:worker/task:9`, which
`ClusterInfo` reports as not found, neither `InitializeCollectiveGroups` nor the
constructor returns an error; the lookup error is turned into the assertion
failure of `Expected::get`. -/
theorem InitializeCollectiveGroups_no_error_returned :
    exampleClusterInfo.GetTaskHandle "/job:worker/task:9" =
      Result.error { code := ErrorCode.NotFound, message := "/job:worker/task:9" } ∧
    InitializeCollectiveGroups exampleClusterInfo strayMemberConfig =
      Result.assertFailed "Cannot get value when an error exists!" ∧
    (¬ ∃ e, InitializeCollectiveGroups exampleClusterInfo strayMemberConfig = Result.error e) ∧
    ¬ ∃ e, DistributedContext.construct 7 { created := [] } (fun _ task => task.toNat)
      exampleClusterInfo strayMemberConfig = Result.error e := by
  have h1 : InitializeCollectiveGroups exampleClusterInfo strayMemberConfig =
      Result.assertFailed "Cannot get value when an error exists!" := by decide
  refine ⟨by decide, h1, ?_, ?_⟩
  · rintro ⟨e, he⟩
    rw [h1] at he
    cases he
  · rintro ⟨e, he⟩
    simp [DistributedContext.construct, h1, Result.andThen] at he

theorem initializeGroupsLoop_append (ci : ClusterInfo) (a b : List CollectiveGroupProto)
    (acc : List (String × CollectiveGroup)) :
    initializeGroupsLoop ci (a ++ b) acc =
      (initializeGroupsLoop ci a acc).andThen (initializeGroupsLoop ci b) := by
  induction a generalizing acc with
  | nil => rfl
  | cons g a ih =>
    simp only [List.cons_append, initializeGroupsLoop]
    cases resolveMembers ci g.members [] with
    | value members => exact ih _
    | error e => rfl
    | assertFailed msg => rfl

/-- With every member resolvable the outer loop returns a map; it keeps every
entry it started from, and leaves alone the names it does not meet. -/
theorem initializeGroupsLoop_value (ci : ClusterInfo) (groups : List CollectiveGroupProto)
    (acc : List (String × CollectiveGroup))
    (hres : ∀ g ∈ groups, ∀ m ∈ g.members, ∃ t, ci.GetTaskHandle m = Result.value t) :
    ∃ out, initializeGroupsLoop ci groups acc = Result.value out ∧
      (∀ k v, Map.find acc k = some v → Map.find out k = some v) ∧
      (∀ k, (∀ g ∈ groups, g.name ≠ k) → Map.find out k = Map.find acc k) := by
  induction groups generalizing acc with
  | nil => exact ⟨acc, rfl, fun _ _ h => h, fun _ _ => rfl⟩
  | cons g groups ih =>
    obtain ⟨hs, hhs⟩ := resolvable_handles ci g.members (hres g (List.mem_cons_self _ _))
    obtain ⟨out, hout, hkeep, hother⟩ :=
      ih (Map.try_emplace acc g.name { name := g.name, members := hs }).1
        fun x hx => hres x (List.mem_cons_of_mem _ hx)
    refine ⟨out, ?_, ?_, ?_⟩
    · simp only [initializeGroupsLoop, resolveMembers_value ci g.members hs [] hhs,
        Result.andThen, List.nil_append, hout]
    · intro k v hk
      exact hkeep k v (find_try_emplace_of_some acc g.name k _ v hk)
    · intro k hk
      rw [hother k fun x hx => hk x (List.mem_cons_of_mem _ hx)]
      exact find_try_emplace_ne acc g.name k _ (hk g (List.mem_cons_self _ _))

/-- C7, as the code has it: when every collective-group member is resolvable,
the session is constructed, and for the first group declared under a name
`GetCollectiveGroup` of that name returns a group of that name whose members
are, in declaration order and in equal number, the handles `ClusterInfo`
resolves for the declared members. -/
theorem GetCollectiveGroup_first_declaration (context_id : Nat)
    (communicator : FabricCommunicator) (GetTaskHandle : String → Int → TaskHandle)
    (ci : ClusterInfo) (cfg : DistributedContextConfiguration)
    (hres : ∀ g ∈ cfg.collective_groups, ∀ m ∈ g.members,
      ∃ t, ci.GetTaskHandle m = Result.value t)
    (before after : List CollectiveGroupProto) (gc : CollectiveGroupProto)
    (hsplit : cfg.collective_groups = before ++ gc :: after)
    (hfirst : ∀ g ∈ before, g.name ≠ gc.name) :
    ∃ ctx members,
      DistributedContext.construct context_id communicator GetTaskHandle ci cfg =
        Result.value ctx ∧
      ctx.GetCollectiveGroup gc.name = Result.value { name := gc.name, members := members } ∧
      members.length = gc.members.length ∧
      gc.members.map ci.GetTaskHandle = members.map Result.value := by
  rw [hsplit] at hres
  have hres1 : ∀ g ∈ before, ∀ m ∈ g.members, ∃ t, ci.GetTaskHandle m = Result.value t :=
    fun g hg => hres g (List.mem_append_left _ hg)
  have hres2 : ∀ m ∈ gc.members, ∃ t, ci.GetTaskHandle m = Result.value t :=
    hres gc (List.mem_append_right _ (List.mem_cons_self _ _))
  have hres3 : ∀ g ∈ after, ∀ m ∈ g.members, ∃ t, ci.GetTaskHandle m = Result.value t :=
    fun g hg => hres g (List.mem_append_right _ (List.mem_cons_of_mem _ hg))
  obtain ⟨out1, hout1, -, hother1⟩ := initializeGroupsLoop_value ci before [] hres1
  obtain ⟨hs, hhs⟩ := resolvable_handles ci gc.members hres2
  obtain ⟨out3, hout3, hkeep3, -⟩ := initializeGroupsLoop_value ci after
    (Map.try_emplace out1 gc.name { name := gc.name, members := hs }).1 hres3
  have hnone : Map.find out1 gc.name = none := by
    rw [hother1 gc.name hfirst]
    rfl
  have hfind : Map.find out3 gc.name = some { name := gc.name, members := hs } :=
    hkeep3 _ _ (find_try_emplace_self out1 gc.name _ hnone)
  have hinit : InitializeCollectiveGroups ci cfg = Result.value out3 := by
    simp only [InitializeCollectiveGroups, hsplit, initializeGroupsLoop_append, hout1,
      Result.andThen, initializeGroupsLoop, resolveMembers_value ci gc.members hs [] hhs,
      List.nil_append, hout3]
  have hctx : DistributedContext.construct context_id communicator GetTaskHandle ci cfg =
      Result.value
        { context_id_ := context_id, dist_config_ := cfg, cluster_info_ := ci,
          GetTaskHandle := GetTaskHandle, collective_groups_ := out3, remote_clients_ := [],
          communicator := communicator } := by
    simp only [DistributedContext.construct, hinit, Result.andThen]
  refine ⟨_, hs, hctx, ?_, ?_, hhs⟩
  · simp only [DistributedContext.GetCollectiveGroup, hfind]
  · have := congrArg List.length hhs
    simpa using this.symm

/-- C7, on the example configuration: its second group `h` is the first (and
only) group declared under that name. -/
theorem GetCollectiveGroup_first_declaration_witness :
    (∀ g ∈ exampleConfig.collective_groups, ∀ m ∈ g.members,
      ∃ t, exampleClusterInfo.GetTaskHandle m = Result.value t) ∧
    exampleConfig.collective_groups =
      [{ name := "g", members := ["/job:worker/task:2", "/job:worker/task:0"] }] ++
        { name := "h", members := ["/job:worker/task:1"] } :: [] ∧
    ∃ ctx members,
      DistributedContext.construct 7 { created := [] } (fun _ task => task.toNat)
        exampleClusterInfo exampleConfig = Result.value ctx ∧
      ctx.GetCollectiveGroup "h" = Result.value { name := "h", members := members } ∧
      members.length = 1 ∧
      ["/job:worker/task:1"].map exampleClusterInfo.GetTaskHandle = members.map Result.value := by
  have hres : ∀ g ∈ exampleConfig.collective_groups, ∀ m ∈ g.members,
      ∃ t, exampleClusterInfo.GetTaskHandle m = Result.value t := by
    intro g hg m hm
    simp only [exampleConfig, List.mem_cons, List.mem_singleton, List.not_mem_nil, or_false] at hg
    rcases hg with rfl | rfl
    · simp only [List.mem_cons, List.mem_singleton, List.not_mem_nil, or_false] at hm
      rcases hm with rfl | rfl
      · exact ⟨2, by decide⟩
      · exact ⟨0, by decide⟩
    · simp only [List.mem_cons, List.mem_singleton, List.not_mem_nil, or_false] at hm
      subst hm
      exact ⟨1, by decide⟩
  exact ⟨hres, rfl,
    GetCollectiveGroup_first_declaration 7 { created := [] } (fun _ task => task.toNat)
      exampleClusterInfo exampleConfig hres
      [{ name := "g", members := ["/job:worker/task:2", "/job:worker/task:0"] }] []
      { name := "h", members := ["/job:worker/task:1"] } rfl (by decide)⟩

/-- C7 fails as stated: in a configuration that declares the name `g` twice,
with every member resolvable, `GetCollectiveGroup "g"` returns the members of
the first declaration (one member), not those of the second declaration of `g`
(two members). -/
theorem GetCollectiveGroup_ignores_redeclaration :
    (∀ g ∈ twiceDeclaredConfig.collective_groups, ∀ m ∈ g.members,
      ∃ t, exampleClusterInfo.GetTaskHandle m = Result.value t) ∧
    ({ name := "g", members := ["/job:worker/task:0", "/job:worker/task:1"] } :
      CollectiveGroupProto) ∈ twiceDeclaredConfig.collective_groups ∧
    (DistributedContext.construct 7 { created := [] } (fun _ task => task.toNat)
        exampleClusterInfo twiceDeclaredConfig).andThen
      (fun ctx => ctx.GetCollectiveGroup "g")
      = Result.value { name := "g", members := [2] } := by
  refine ⟨?_, by decide, by decide⟩
  intro g hg m hm
  simp only [twiceDeclaredConfig, List.mem_cons, List.mem_singleton, List.not_mem_nil,
    or_false] at hg
  rcases hg with rfl | rfl
  · simp only [List.mem_cons, List.mem_singleton, List.not_mem_nil, or_false] at hm
    subst hm
    exact ⟨2, by decide⟩
  · simp only [List.mem_cons, List.mem_singleton, List.not_mem_nil, or_false] at hm
    rcases hm with rfl | rfl
    · exact ⟨0, by decide⟩
    · exact ⟨1, by decide⟩

/-! ## Theorems: the remote-client cache -/

theorem GetRemoteClient_hit (ctx : DistributedContext) (h : TaskHandle) (c : RemoteClient)
    (hfind : Map.find ctx.remote_clients_ h = some c) : ctx.GetRemoteClient h = (c, ctx) := by
  simp only [DistributedContext.GetRemoteClient, hfind]

theorem GetRemoteClient_miss (ctx : DistributedContext) (h : TaskHandle)
    (hfind : Map.find ctx.remote_clients_ h = none) :
    (ctx.GetRemoteClient h).1 = { object := ctx.communicator.created.length, task_handle := h } ∧
    (ctx.GetRemoteClient h).2.remote_clients_ =
      ctx.remote_clients_ ++
        [(h, { object := ctx.communicator.created.length, task_handle := h })] ∧
    (ctx.GetRemoteClient h).2.communicator.created = ctx.communicator.created ++ [h] := by
  simp [DistributedContext.GetRemoteClient, hfind, FabricCommunicator.CreateRemoteClient,
    Map.try_emplace]

/-- One call keeps every cache entry as it is. -/
theorem GetRemoteClient_keeps (ctx : DistributedContext) (h k : TaskHandle) (c : RemoteClient)
    (hk : Map.find ctx.remote_clients_ k = some c) :
    Map.find (ctx.GetRemoteClient h).2.remote_clients_ k = some c := by
  cases hfind : Map.find ctx.remote_clients_ h with
  | some c' => rw [GetRemoteClient_hit ctx h c' hfind]; exact hk
  | none =>
    rw [(GetRemoteClient_miss ctx h hfind).2.1, find_append, hk]
    rfl

/-- After a call the cache holds the returned client under the handle. -/
theorem GetRemoteClient_cached (ctx : DistributedContext) (h : TaskHandle) :
    Map.find (ctx.GetRemoteClient h).2.remote_clients_ h = some (ctx.GetRemoteClient h).1 := by
  cases hfind : Map.find ctx.remote_clients_ h with
  | some c' => rw [GetRemoteClient_hit ctx h c' hfind]; exact hfind
  | none =>
    obtain ⟨h1, h2, -⟩ := GetRemoteClient_miss ctx h hfind
    rw [h1, h2, find_append, hfind]
    simp

theorem GetRemoteClient_other (ctx : DistributedContext) (h k : TaskHandle) (hne : h ≠ k) :
    Map.find (ctx.GetRemoteClient h).2.remote_clients_ k = Map.find ctx.remote_clients_ k := by
  cases hfind : Map.find ctx.remote_clients_ h with
  | some c' => rw [GetRemoteClient_hit ctx h c' hfind]
  | none =>
    rw [(GetRemoteClient_miss ctx h hfind).2.1, find_append]
    cases Map.find ctx.remote_clients_ k <;> simp [hne]

/-- A sequence of calls keeps every cache entry as it is. -/
theorem GetRemoteClients_keeps (ctx : DistributedContext) (handles : List TaskHandle)
    (k : TaskHandle) (c : RemoteClient) (hk : Map.find ctx.remote_clients_ k = some c) :
    Map.find (ctx.GetRemoteClients handles).2.remote_clients_ k = some c := by
  induction handles generalizing ctx with
  | nil => exact hk
  | cons h handles ih =>
    simp only [DistributedContext.GetRemoteClients]
    exact ih _ (GetRemoteClient_keeps ctx h k c hk)

/-- Every client a sequence of calls returns is the entry of its handle in the
cache at the end. -/
theorem GetRemoteClients_cached (ctx : DistributedContext) (handles : List TaskHandle) :
    (ctx.GetRemoteClients handles).1.map some =
      handles.map (Map.find (ctx.GetRemoteClients handles).2.remote_clients_) := by
  induction handles generalizing ctx with
  | nil => rfl
  | cons h handles ih =>
    simp only [DistributedContext.GetRemoteClients, List.map_cons, List.cons.injEq]
    exact ⟨(GetRemoteClients_keeps _ handles h _ (GetRemoteClient_cached ctx h)).symm, ih _⟩

/-- The factory invocations a sequence of calls adds: one for every requested
handle that was not cached before, none for any other. -/
theorem GetRemoteClients_created (ctx : DistributedContext) (handles : List TaskHandle) :
    ∃ added : List TaskHandle,
      (ctx.GetRemoteClients handles).2.communicator.created =
        ctx.communicator.created ++ added ∧
      ∀ k, added.count k =
        if k ∈ handles ∧ Map.find ctx.remote_clients_ k = none then 1 else 0 := by
  induction handles generalizing ctx with
  | nil => exact ⟨[], by simp [DistributedContext.GetRemoteClients], by simp⟩
  | cons h handles ih =>
    obtain ⟨added, hadded, hcount⟩ := ih (ctx.GetRemoteClient h).2
    simp only [DistributedContext.GetRemoteClients]
    cases hfind : Map.find ctx.remote_clients_ h with
    | some c =>
      rw [GetRemoteClient_hit ctx h c hfind] at hadded hcount ⊢
      refine ⟨added, hadded, ?_⟩
      intro k
      rw [hcount k]
      by_cases hk : k = h
      · subst hk
        simp [hfind]
      · simp [hk]
    | none =>
      refine ⟨h :: added, ?_, ?_⟩
      · rw [hadded, (GetRemoteClient_miss ctx h hfind).2.2]
        simp
      · intro k
        rw [List.count_cons, hcount k]
        by_cases hk : k = h
        · subst hk
          simp [GetRemoteClient_cached, hfind]
        · have hne : h ≠ k := fun e => hk e.symm
          simp [hk, hne, GetRemoteClient_other ctx h k hne]

/-- C8: for every sequence of `GetRemoteClient` calls on a session, the
factory `CreateRemoteClient` is invoked once for every requested handle that
has no client yet and never for any other (so once per distinct handle on a
fresh session, at its first request); every returned client is the cache entry
of its handle, so equal handles get the same client instance; and every entry
present before a call is present and unchanged after it. -/
theorem GetRemoteClient_once_per_handle (ctx : DistributedContext) (handles : List TaskHandle) :
    (∃ added : List TaskHandle,
      (ctx.GetRemoteClients handles).2.communicator.created =
        ctx.communicator.created ++ added ∧
      ∀ k, added.count k =
        if k ∈ handles ∧ Map.find ctx.remote_clients_ k = none then 1 else 0) ∧
    (∀ h, (ctx.GetRemoteClient h).2.communicator.created =
      if Map.find ctx.remote_clients_ h = none then ctx.communicator.created ++ [h]
      else ctx.communicator.created) ∧
    (ctx.GetRemoteClients handles).1.map some =
      handles.map (Map.find (ctx.GetRemoteClients handles).2.remote_clients_) ∧
    (∀ i j : Nat, handles[i]? = handles[j]? →
      (ctx.GetRemoteClients handles).1[i]? = (ctx.GetRemoteClients handles).1[j]?) ∧
    (∀ h k c, Map.find ctx.remote_clients_ k = some c →
      Map.find (ctx.GetRemoteClient h).2.remote_clients_ k = some c) ∧
    (∀ k c, Map.find ctx.remote_clients_ k = some c →
      Map.find (ctx.GetRemoteClients handles).2.remote_clients_ k = some c) := by
  refine ⟨GetRemoteClients_created ctx handles, ?_, GetRemoteClients_cached ctx handles, ?_,
    fun h k c hk => GetRemoteClient_keeps ctx h k c hk,
    fun k c hk => GetRemoteClients_keeps ctx handles k c hk⟩
  · intro h
    cases hfind : Map.find ctx.remote_clients_ h with
    | some c => rw [GetRemoteClient_hit ctx h c hfind]; simp
    | none => rw [(GetRemoteClient_miss ctx h hfind).2.2]; simp
  · intro i j hij
    have hcached := GetRemoteClients_cached ctx handles
    have hi := congrArg (fun l => l[i]?) hcached
    have hj := congrArg (fun l => l[j]?) hcached
    simp only [List.getElem?_map] at hi hj
    rw [hij, ← hj] at hi
    cases hci : (ctx.GetRemoteClients handles).1[i]? <;>
      cases hcj : (ctx.GetRemoteClients handles).1[j]? <;>
      simp_all

/-! ## Theorems: create and close reach the same recipients -/

/-- On a session that already holds a client for every handle of a sequence,
the sequence of calls returns the cached clients and leaves the session as it
is. -/
theorem GetRemoteClients_all_cached (ctx : DistributedContext) (handles : List TaskHandle)
    (hall : ∀ h ∈ handles, ∃ c, Map.find ctx.remote_clients_ h = some c) :
    (ctx.GetRemoteClients handles).1.map some = handles.map (Map.find ctx.remote_clients_) ∧
    (ctx.GetRemoteClients handles).2 = ctx := by
  induction handles with
  | nil => exact ⟨rfl, rfl⟩
  | cons h handles ih =>
    obtain ⟨c, hc⟩ := hall h (List.mem_cons_self _ _)
    obtain ⟨ih1, ih2⟩ := ih fun x hx => hall x (List.mem_cons_of_mem _ hx)
    simp only [DistributedContext.GetRemoteClients, GetRemoteClient_hit ctx h c hc, List.map_cons,
      hc, ih1, ih2, and_self]

/-- A second pass over the same handles returns the same clients. -/
theorem GetRemoteClients_again (ctx : DistributedContext) (handles : List TaskHandle) :
    ((ctx.GetRemoteClients handles).2.GetRemoteClients handles).1 =
      (ctx.GetRemoteClients handles).1 := by
  have hcached := GetRemoteClients_cached ctx handles
  have hall : ∀ h ∈ handles,
      ∃ c, Map.find (ctx.GetRemoteClients handles).2.remote_clients_ h = some c := by
    intro h hh
    have hmem : Map.find (ctx.GetRemoteClients handles).2.remote_clients_ h ∈
        (ctx.GetRemoteClients handles).1.map some := by
      rw [hcached]
      exact List.mem_map_of_mem _ hh
    obtain ⟨c, -, hc⟩ := List.mem_map.mp hmem
    exact ⟨c, hc.symm⟩
  have hsecond := (GetRemoteClients_all_cached _ handles hall).1
  rw [← hcached] at hsecond
  exact (List.map_injective_iff.mpr (Option.some_injective _)) hsecond

/-- Once the issuing function has returned, the clients called are those a
sequence of `GetRemoteClient` calls over the recipients returns, and the
session is the one that sequence leaves. -/
theorem Issued_returned {ctx0 : DistributedContext} {s : Broadcast} (hs : s.Issued ctx0)
    (htodo : s.todo = []) :
    s.calls.map (fun c => c.client) = (ctx0.GetRemoteClients (recipientHandles ctx0)).1 ∧
    s.ctx = (ctx0.GetRemoteClients (recipientHandles ctx0)).2 := by
  have h1 := hs.clients
  have h2 := hs.final
  rw [htodo] at h1 h2
  exact ⟨by simpa [DistributedContext.GetRemoteClients] using h1,
    by simpa [DistributedContext.GetRemoteClients] using h2⟩

/-- C9, as the code has it: `CloseRemoteContexts`, run on the session that
`CreateRemoteContexts` has left, calls `CloseContextAsync` on the same clients
in the same order as `CreateContextAsync` was called; every close call is
given the one request object made before the loop, which carries the session's
context id and nothing else, and a response object of its own, allocated for
that call and different from the response of every other call. -/
theorem CloseRemoteContexts_same_recipients (ctx : DistributedContext)
    (evs1 evs2 : List Event) (s1 s2 : Broadcast)
    (h1 : ctx.CreateRemoteContexts.exec evs1 = some s1) (hr1 : s1.returned = true)
    (h2 : s1.ctx.CloseRemoteContexts.exec evs2 = some s2) (hr2 : s2.returned = true) :
    s2.calls.map (fun c => c.client) = s1.calls.map (fun c => c.client) ∧
    (∀ c ∈ s1.calls, c.rpc = Rpc.CreateContextAsync) ∧
    (∀ c ∈ s2.calls, c.rpc = Rpc.CloseContextAsync ∧
      c.request_object = s2.shared_request ∧
      c.request = Request.close { context_id := ctx.context_id_ }) ∧
    (s2.calls.map fun c => c.response_object).Nodup ∧
    (∀ c ∈ s2.calls, c.response_object ≠ s2.shared_request) := by
  have hI1 := Issued_exec (Issued_create ctx) h1
  have hI2 := Issued_exec (Issued_close s1.ctx) h2
  have ht1 := (Inv_exec (Inv_create ctx) h1).ret hr1
  have ht2 := (Inv_exec (Inv_close s1.ctx) h2).ret hr2
  have hrpc1 : s1.rpc = Rpc.CreateContextAsync := rpc_exec h1
  have hrpc2 : s2.rpc = Rpc.CloseContextAsync := rpc_exec h2
  obtain ⟨hc1, hctx1⟩ := Issued_returned hI1 ht1
  obtain ⟨hc2, -⟩ := Issued_returned hI2 ht2
  have hhandles : recipientHandles s1.ctx = recipientHandles ctx := by
    simp only [recipientHandles, hI1.cfg, hI1.gth]
  refine ⟨?_, fun c hc => (hI1.kind c hc).trans hrpc1, ?_, hI2.distinct.1, hI2.distinct.2⟩
  · rw [hc2, hc1, hhandles, hctx1]
    exact GetRemoteClients_again ctx (recipientHandles ctx)
  · intro c hc
    have hshared := hI2.shared hrpc2 c hc
    exact ⟨(hI2.kind c hc).trans hrpc2, hshared.1, by rw [hshared.2, hI1.cid]⟩

/-- C9, on the example session: the close calls go to the clients of tasks 1
and 2, as the create calls did, with one request object and two response
objects. -/
theorem CloseRemoteContexts_same_recipients_witness :
    (exampleContext.CreateRemoteContexts.exec exampleSchedule).bind (fun s1 =>
      (s1.ctx.CloseRemoteContexts.exec [Event.run, Event.run, Event.run]).map fun s2 =>
        (s1.returned, s2.returned, s1.calls.map fun c => c.client,
          s2.calls.map fun c => (c.client, c.request_object, c.response_object))) =
      some (true, true,
        [{ object := 0, task_handle := 1 }, { object := 1, task_handle := 2 }],
        [({ object := 0, task_handle := 1 }, 0, 1), ({ object := 1, task_handle := 2 }, 0, 2)]) ∧
    (exampleContext.CreateRemoteContexts.exec exampleSchedule).bind (fun s1 =>
      (s1.ctx.CloseRemoteContexts.exec [Event.run, Event.run, Event.run]).map fun s2 =>
        decide (s2.calls.map (fun c => c.client) = s1.calls.map (fun c => c.client))) =
      some true := by
  refine ⟨rfl, ?_⟩
  have hsome : (exampleContext.CreateRemoteContexts.exec exampleSchedule).isSome = true := by
    decide
  obtain ⟨s1, h1⟩ := Option.isSome_iff_exists.mp hsome
  have hret1 : (exampleContext.CreateRemoteContexts.exec exampleSchedule).map
      (fun s => s.returned) = some true := by decide
  have hsome2 : ((exampleContext.CreateRemoteContexts.exec exampleSchedule).bind fun s1 =>
      s1.ctx.CloseRemoteContexts.exec [Event.run, Event.run, Event.run]).isSome = true := by
    decide
  have hret2 : ((exampleContext.CreateRemoteContexts.exec exampleSchedule).bind fun s1 =>
      s1.ctx.CloseRemoteContexts.exec [Event.run, Event.run, Event.run]).map
      (fun s => s.returned) = some true := by decide
  rw [h1] at hret1 hsome2 hret2 ⊢
  simp only [Option.map_some', Option.some.injEq, Option.some_bind] at hret1 hsome2 hret2 ⊢
  obtain ⟨s2, h2⟩ := Option.isSome_iff_exists.mp hsome2
  rw [h2] at hret2 ⊢
  simp only [Option.map_some', Option.some.injEq] at hret2 ⊢
  exact decide_eq_true
    (CloseRemoteContexts_same_recipients exampleContext _ _ s1 s2 h1 hret1 h2 hret2).1

/-- C9 fails as stated: on the example session the two `CloseContextAsync`
calls are given the same request object (object 0) but different response
objects (objects 1 and 2), one made per recipient inside the loop. -/
theorem CloseRemoteContexts_response_per_call :
    (exampleContext.CloseRemoteContexts.exec [Event.run, Event.run, Event.run]).map
      (fun s => s.calls.map fun c => (c.request_object, c.response_object)) =
      some [(0, 1), (0, 2)] := by
  decide

/-! ## Theorems: the release of the borrowed sub-messages -/

/-- The release loop, with fuel that covers the size of the field: it stops
on its own condition, after releasing every second entry; from counter `i` on a
field of size `n` it leaves the first `n - (n - i + 1) / 2` entries. -/
theorem releaseLoop_groups (fuel i : Nat) (d : RequestDistConfig)
    (hfuel : d.collective_groups.length ≤ fuel + i) :
    RequestDistConfig.releaseLoop fuel i d =
      { d with
        collective_groups :=
          d.collective_groups.take
            (d.collective_groups.length - (d.collective_groups.length - i + 1) / 2) } := by
  induction fuel generalizing i d with
  | zero =>
    have hle : d.collective_groups.length ≤ i := by omega
    have h0 : d.collective_groups.length - (d.collective_groups.length - i + 1) / 2 =
        d.collective_groups.length := by omega
    simp only [RequestDistConfig.releaseLoop]
    rw [h0, List.take_length]
  | succ fuel ih =>
    simp only [RequestDistConfig.releaseLoop]
    by_cases hlt : i < d.collective_groups.length
    · rw [if_pos hlt, ih (i + 1) d.ReleaseLast
        (by simp only [RequestDistConfig.ReleaseLast, List.length_dropLast]; omega)]
      simp only [RequestDistConfig.ReleaseLast, List.length_dropLast]
      rw [List.dropLast_eq_take, List.take_take]
      congr 2
      omega
    · have h0 : d.collective_groups.length - (d.collective_groups.length - i + 1) / 2 =
          d.collective_groups.length := by omega
      rw [if_neg hlt, h0, List.take_length]

/-- C10 does not hold in the code: the completion lambda releases
`cluster_config`, but its loop leaves the first `n / 2` of the `n` borrowed
collective groups in the per-recipient request. On the example session (two
collective groups) the request still holds the first group of the base
request (object 0) when the lambda has run, and deletes it when it is
destroyed. -/
theorem completionLambda_leaves_borrowed_groups :
    (∀ (rc_done : RefCountedCallback) (r : CreateContextRequest) (e : Error),
      (completionLambda rc_done (Request.create r) e).2 =
        Request.create
          { r with
            dist_config :=
              { r.dist_config with
                cluster_config := none,
                collective_groups :=
                  r.dist_config.collective_groups.take
                    (r.dist_config.collective_groups.length / 2) } }) ∧
    (exampleContext.CreateRemoteContexts.exec [Event.run]).map
      (fun s => s.pending.map fun p => p.request.deletes) =
      some [[Ptr.cluster_config 0, Ptr.collective_group 0 0, Ptr.collective_group 0 1]] ∧
    (exampleContext.CreateRemoteContexts.exec [Event.run, Event.complete 0 none]).map
      (fun s => s.deleted) = some [Ptr.collective_group 0 0] := by
  refine ⟨?_, by decide, by decide⟩
  intro rc_done r e
  simp only [completionLambda, RequestDistConfig.release_cluster_config]
  rw [releaseLoop_groups _ 0 _ (by simp)]
  simp only [Nat.sub_zero]
  have hhalf : r.dist_config.collective_groups.length -
      (r.dist_config.collective_groups.length + 1) / 2 =
      r.dist_config.collective_groups.length / 2 := by omega
  rw [hhalf]

/-! ## Theorems: the conversion of the matched task id -/

/-- C11 does not hold in the code: the pattern accepts
`/job:a/task:2147483648` with the task-id group `2147483648`, `to_integer`
fails on these digits (the value does not fit an `int`), and `ParseTaskName`,
which does not look at the result of the conversion, returns success with
`out_task_id` left at whatever it held on entry instead of the decimal value
of the matched digits. -/
theorem ParseTaskName_ignores_failed_conversion :
    regexMatch kTaskNameRegex "/job:a/task:2147483648".data =
      some ["/job:a/task:2147483648".data, "a".data, "2147483648".data] ∧
    to_integer "2147483648".data = none ∧
    to_integer "2147483647".data = some 2147483647 ∧
    ∀ (out_job_name : String) (out_task_id : Int),
      ParseTaskName "/job:a/task:2147483648" out_job_name out_task_id =
        { error := none, out_job_name := "a", out_task_id := out_task_id } := by
  have hm : regexMatch kTaskNameRegex "/job:a/task:2147483648".data =
      some ["/job:a/task:2147483648".data, "a".data, "2147483648".data] := by decide
  have hi : to_integer "2147483648".data = none := by decide
  refine ⟨hm, hi, by decide, ?_⟩
  intro out_job_name out_task_id
  simp only [ParseTaskName, hm, List.getD_cons_succ, List.getD_cons_zero, hi, Option.getD_none]

end tfrt
